import Mathlib

/-!
Verification of the accio template front end (tokenizer, parser, document
assembler) and the generator's path containment helper, as a shallow
embedding in Lean 4.

The embedding follows the Go sources:
* `template/markup.go` — the document assembler (`Markup`, `setVar`,
  `setPartial`, `parse`, `parseTagNameAttr`, `parseBody`, `parseScriptBody`);
* the `markup` package tokenizer, whose implementation file is not in the
  source tree (only its test vectors are), modelled from the specification;
* `generator` — `joinWithinRoot` and the pieces of Go's `path/filepath`
  standard library it uses (`Clean`, `Join`, `Split`), modelled from their
  documented semantics on a Unix separator.

Side-effecting diagnostics (Go `log.Printf` calls) are modelled as an
explicit list of diagnostic strings returned next to the document.
-/

namespace template

/-- Script-source form of a stored expression.  Modelled from the spec:
the helper `wrapInlineScript` used by `parseScriptBody` in
`template/markup.go` is not part of the available sources; per the spec
(§4.3) an inline body is "treated as a single expression to be evaluated"
while a multi-line body is "a full script block", a contract passed through
to the external evaluator.  We model the two script-source forms as a tagged
value so that the wrapped (single-expression) form is distinguishable from
the verbatim script-block form. -/
inductive ScriptSource where
  | expr (src : String)
  | block (src : String)
deriving DecidableEq, Repr

/-- Modelled from the spec: wraps an inline body as a single expression to
be evaluated (the concrete wrapper string of the missing Go helper is
abstracted into the `ScriptSource.expr` tag). -/
def wrapInlineScript (s : String) : ScriptSource := ScriptSource.expr s

/-- One attribute of a markup tag: a name/value pair (markup package). -/
structure AttrNode where
  Name : String
  Value : String
deriving DecidableEq, Repr

/-- The body of a markup tag: raw content plus the inline/multi-line flag
(markup package). -/
structure BodyNode where
  Content : String
  Inline : Bool
deriving DecidableEq, Repr

/-- One parsed markup tag: name, ordered attributes, optional body
(markup package). -/
structure TagNode where
  Name : String
  Attributes : List AttrNode
  Body : Option BodyNode
deriving DecidableEq, Repr

def tagFilename : String := "filename"
def tagSkip : String := "skipif"
def tagTemplate : String := "template"
def tagPartialName : String := "partial"
def tagVariable : String := "variable"
def attrName : String := "name"

/-- The assembled Markup document (`template/markup.go`).  `Vars` holds
variables in their original order; `Partials` models the Go map. -/
structure Markup where
  Filename : ScriptSource
  Skip : ScriptSource
  Body : String
  Vars : List (String × ScriptSource)
  Partials : String → Option String

/-- `newMarkup` from `template/markup.go` (zero scalar fields, empty
variables, empty partial map). -/
def newMarkup : Markup :=
  { Filename := ScriptSource.block ""
    Skip := ScriptSource.block ""
    Body := ""
    Vars := []
    Partials := fun _ => none }

/-- `vars.find` from `template/markup.go`: index of the first entry with
the given key (`none` models Go's `-1`). -/
def varsFind (v : List (String × ScriptSource)) (key : String) : Option Nat :=
  match v with
  | [] => none
  | p :: rest => if p.1 = key then some 0 else (varsFind rest key).map (· + 1)

def varOverwriteMsg (name : String) : String :=
  "Variable definition for \"" ++ name ++ "\" already exists. Overwriting..."

def partialOverwriteMsg (name : String) : String :=
  "Partial definition for \"" ++ name ++ "\" already exists. Overwriting..."

def missingNameMsg (tagName : String) : String :=
  "Tag \"" ++ tagName ++ "\" is missing \"name\" attribute. Skipping..."

def missingBodyMsg (tagName name : String) : String :=
  "Tag \"" ++ tagName ++ "\" with name \"" ++ name ++ "\" is missing body. Skipping...\n"

/-- `Markup.setPartial` from `template/markup.go`: store a partial under
`name`, emitting a diagnostic when an entry already exists. -/
def setPartial (m : Markup) (name val : String) : Markup × List String :=
  let diags := if (m.Partials name).isSome then [partialOverwriteMsg name] else []
  ({ m with Partials := fun k => if k = name then some val else m.Partials k }, diags)

/-- `Markup.setVar` from `template/markup.go`: replace an existing variable
in place (emitting a diagnostic), otherwise append at the end. -/
def setVar (m : Markup) (name : String) (val : ScriptSource) : Markup × List String :=
  match varsFind m.Vars name with
  | some i => ({ m with Vars := m.Vars.set i (name, val) }, [varOverwriteMsg name])
  | none => ({ m with Vars := m.Vars ++ [(name, val)] }, [])

/-- `parseTagNameAttr` from `template/markup.go`: the last attribute named
`name` wins; an empty resulting value means the tag is skipped with a
diagnostic (`none` models `errSkipTag`). -/
def parseTagNameAttr (tag : TagNode) : Option String × List String :=
  let name := tag.Attributes.foldl
    (fun acc attr => if attr.Name = attrName then attr.Value else acc) ""
  if name = "" then (none, [missingNameMsg tag.Name]) else (some name, [])

/-- `parseBody` from `template/markup.go`: raw body content, `""` when the
tag has no body. -/
def parseBody (tag : TagNode) : String :=
  match tag.Body with
  | none => ""
  | some b => b.Content

/-- `parseScriptBody` from `template/markup.go`: inline bodies are wrapped
as a single expression, anything else is kept as a script block. -/
def parseScriptBody (tag : TagNode) : ScriptSource :=
  match tag.Body with
  | none => ScriptSource.block ""
  | some b => if b.Inline then wrapInlineScript b.Content else ScriptSource.block b.Content

/-- The per-tag case analysis of `parse` in `template/markup.go` (the body
of its `for` loop), returning the updated document and the diagnostics the
iteration emits. -/
def processTag (m : Markup) (tag : TagNode) : Markup × List String :=
  if tag.Name = tagFilename then ({ m with Filename := parseScriptBody tag }, [])
  else if tag.Name = tagSkip then ({ m with Skip := parseScriptBody tag }, [])
  else if tag.Name = tagTemplate then ({ m with Body := parseBody tag }, [])
  else if tag.Name = tagPartialName ∨ tag.Name = tagVariable then
    match parseTagNameAttr tag with
    | (none, diags) => (m, diags)
    | (some name, _) =>
      match tag.Body with
      | none => (m, [missingBodyMsg tag.Name name])
      | some _ =>
        if tag.Name = tagPartialName then setPartial m name (parseBody tag)
        else setVar m name (parseScriptBody tag)
  else (m, [])

/-- One fold step of `parse`: apply `processTag` and append its
diagnostics. -/
def parseStep (acc : Markup × List String) (tag : TagNode) : Markup × List String :=
  ((processTag acc.1 tag).1, acc.2 ++ (processTag acc.1 tag).2)

/-- `parse` from `template/markup.go`: fold all tags into one document,
collecting diagnostics. -/
def parse (tags : List TagNode) : Markup × List String :=
  tags.foldl parseStep (newMarkup, [])

/-! Basic fold lemmas about `parse`. -/

theorem foldl_parseStep_append (st : Markup × List String) (ts us : List TagNode) :
    (ts ++ us).foldl parseStep st = us.foldl parseStep (ts.foldl parseStep st) :=
  List.foldl_append ..

theorem foldl_parseStep_fst (m : Markup) (g g' : List String) (ts : List TagNode) :
    (ts.foldl parseStep (m, g)).1 = (ts.foldl parseStep (m, g')).1 := by
  induction ts generalizing m g g' with
  | nil => rfl
  | cons t ts ih => simpa [parseStep] using ih (processTag m t).1 _ _

theorem foldl_parseStep_snd (m : Markup) (g : List String) (ts : List TagNode) :
    (ts.foldl parseStep (m, g)).2 = g ++ (ts.foldl parseStep (m, [])).2 := by
  induction ts generalizing m g with
  | nil => simp
  | cons t ts ih =>
    simp only [List.foldl_cons, parseStep]
    rw [ih (processTag m t).1 (g ++ (processTag m t).2),
      ih (processTag m t).1 ([] ++ (processTag m t).2)]
    simp

theorem parse_append_single (ts : List TagNode) (t : TagNode) :
    parse (ts ++ [t]) =
      ((processTag (parse ts).1 t).1, (parse ts).2 ++ (processTag (parse ts).1 t).2) := by
  unfold parse
  rw [foldl_parseStep_append]
  cases h : ts.foldl parseStep (newMarkup, []) with
  | mk m g => simp [parseStep]

/-! Characterizations of `parseTagNameAttr` and `processTag` branches. -/

theorem parseTagNameAttr_none (t : TagNode)
    (h : (parseTagNameAttr t).1 = none) :
    parseTagNameAttr t = (none, [missingNameMsg t.Name]) := by
  unfold parseTagNameAttr at h ⊢
  by_cases hc : (t.Attributes.foldl
      (fun acc attr => if attr.Name = attrName then attr.Value else acc) "") = ""
  · simp [hc]
  · simp [hc] at h

theorem parseTagNameAttr_some (t : TagNode) (name : String)
    (h : (parseTagNameAttr t).1 = some name) :
    parseTagNameAttr t = (some name, []) := by
  unfold parseTagNameAttr at h ⊢
  by_cases hc : (t.Attributes.foldl
      (fun acc attr => if attr.Name = attrName then attr.Value else acc) "") = ""
  · simp [hc] at h
  · simp [hc] at h ⊢
    exact h

theorem processTag_of_filename (m : Markup) (t : TagNode)
    (h : t.Name = tagFilename) :
    processTag m t = ({ m with Filename := parseScriptBody t }, []) := by
  unfold processTag
  rw [if_pos h]

theorem processTag_of_skip (m : Markup) (t : TagNode)
    (h : t.Name = tagSkip) :
    processTag m t = ({ m with Skip := parseScriptBody t }, []) := by
  unfold processTag
  rw [if_neg (by rw [h]; decide), if_pos h]

theorem processTag_of_template (m : Markup) (t : TagNode)
    (h : t.Name = tagTemplate) :
    processTag m t = ({ m with Body := parseBody t }, []) := by
  unfold processTag
  rw [if_neg (by rw [h]; decide), if_neg (by rw [h]; decide), if_pos h]

theorem processTag_of_missing_name (m : Markup) (t : TagNode)
    (hn : t.Name = tagPartialName ∨ t.Name = tagVariable)
    (ha : (parseTagNameAttr t).1 = none) :
    processTag m t = (m, [missingNameMsg t.Name]) := by
  unfold processTag
  rw [if_neg (by rcases hn with h | h <;> rw [h] <;> decide),
    if_neg (by rcases hn with h | h <;> rw [h] <;> decide),
    if_neg (by rcases hn with h | h <;> rw [h] <;> decide),
    if_pos hn, parseTagNameAttr_none t ha]

theorem processTag_of_missing_body (m : Markup) (t : TagNode) (name : String)
    (hn : t.Name = tagPartialName ∨ t.Name = tagVariable)
    (ha : (parseTagNameAttr t).1 = some name)
    (hb : t.Body = none) :
    processTag m t = (m, [missingBodyMsg t.Name name]) := by
  unfold processTag
  rw [if_neg (by rcases hn with h | h <;> rw [h] <;> decide),
    if_neg (by rcases hn with h | h <;> rw [h] <;> decide),
    if_neg (by rcases hn with h | h <;> rw [h] <;> decide),
    if_pos hn, parseTagNameAttr_some t name ha, hb]

theorem processTag_of_partial (m : Markup) (t : TagNode) (name : String) (b : BodyNode)
    (hn : t.Name = tagPartialName)
    (ha : (parseTagNameAttr t).1 = some name)
    (hb : t.Body = some b) :
    processTag m t = setPartial m name (parseBody t) := by
  unfold processTag
  rw [if_neg (by rw [hn]; decide), if_neg (by rw [hn]; decide),
    if_neg (by rw [hn]; decide), if_pos (Or.inl hn),
    parseTagNameAttr_some t name ha, hb]
  simp [hn]

theorem processTag_of_variable (m : Markup) (t : TagNode) (name : String) (b : BodyNode)
    (hn : t.Name = tagVariable)
    (ha : (parseTagNameAttr t).1 = some name)
    (hb : t.Body = some b) :
    processTag m t = setVar m name (parseScriptBody t) := by
  unfold processTag
  rw [if_neg (by rw [hn]; decide), if_neg (by rw [hn]; decide),
    if_neg (by rw [hn]; decide), if_pos (Or.inr hn),
    parseTagNameAttr_some t name ha, hb]
  simp [hn, tagPartialName, tagVariable]

/-! Lemmas about `varsFind` and `setVar`. -/

theorem varsFind_lt (v : List (String × ScriptSource)) (key : String) (i : Nat)
    (h : varsFind v key = some i) : i < v.length := by
  induction v generalizing i with
  | nil => simp [varsFind] at h
  | cons p rest ih =>
    unfold varsFind at h
    by_cases hp : p.1 = key
    · simp [hp] at h
      simp
      omega
    · simp [hp] at h
      obtain ⟨j, hj, rfl⟩ := h
      have := ih j hj
      simp
      omega

theorem varsFind_get (v : List (String × ScriptSource)) (key : String) (i : Nat)
    (h : varsFind v key = some i) : (v.map Prod.fst).get? i = some key := by
  induction v generalizing i with
  | nil => simp [varsFind] at h
  | cons p rest ih =>
    unfold varsFind at h
    by_cases hp : p.1 = key
    · simp [hp] at h
      subst h
      simp [hp]
    · simp [hp] at h
      obtain ⟨j, hj, rfl⟩ := h
      simpa using ih j hj

theorem varsFind_some_mem (v : List (String × ScriptSource)) (key : String) (i : Nat)
    (h : varsFind v key = some i) : key ∈ v.map Prod.fst := by
  have := varsFind_get v key i h
  exact List.get?_mem this

theorem varsFind_none_not_mem (v : List (String × ScriptSource)) (key : String)
    (h : varsFind v key = none) : key ∉ v.map Prod.fst := by
  induction v with
  | nil => simp
  | cons p rest ih =>
    unfold varsFind at h
    by_cases hp : p.1 = key
    · simp [hp] at h
    · simp [hp] at h
      intro hmem
      rcases (by simpa using hmem : key = p.1 ∨ ∃ x, (key, x) ∈ rest) with he | ⟨x, hx⟩
      · exact hp he.symm
      · exact (ih h) (List.mem_map.mpr ⟨(key, x), hx, rfl⟩)

theorem list_set_of_get? {α : Type} (l : List α) (i : Nat) (a : α)
    (h : l.get? i = some a) : l.set i a = l := by
  induction l generalizing i with
  | nil => simp at h
  | cons x xs ih =>
    cases i with
    | zero =>
      simp at h
      simp [h]
    | succ j =>
      simp at h
      simp [ih j (by simpa using h)]

theorem list_set_get?_self {α : Type} (l : List α) (i : Nat) (a : α)
    (h : i < l.length) : (l.set i a).get? i = some a := by
  induction l generalizing i with
  | nil => simp at h
  | cons x xs ih =>
    cases i with
    | zero => simp
    | succ j =>
      simp at h
      simpa using ih j h

theorem setVar_names (m : Markup) (n : String) (v : ScriptSource) :
    (setVar m n v).1.Vars.map Prod.fst
      = if n ∈ m.Vars.map Prod.fst then m.Vars.map Prod.fst
        else m.Vars.map Prod.fst ++ [n] := by
  unfold setVar
  cases hf : varsFind m.Vars n with
  | none =>
    rw [if_neg (varsFind_none_not_mem _ _ hf)]
    simp
  | some i =>
    rw [if_pos (varsFind_some_mem _ _ _ hf)]
    simp only
    rw [List.map_set]
    exact list_set_of_get? _ i n (varsFind_get _ _ _ hf)

theorem setVar_nodup (m : Markup) (n : String) (v : ScriptSource)
    (h : (m.Vars.map Prod.fst).Nodup) :
    ((setVar m n v).1.Vars.map Prod.fst).Nodup := by
  rw [setVar_names]
  by_cases hm : n ∈ m.Vars.map Prod.fst
  · simpa [hm] using h
  · simp [hm, List.nodup_append, h, hm]

theorem setVar_stored (m : Markup) (n : String) (v : ScriptSource) :
    ∃ i, (setVar m n v).1.Vars.get? i = some (n, v) := by
  unfold setVar
  cases hf : varsFind m.Vars n with
  | none =>
    exact ⟨m.Vars.length, by simpa using List.get?_concat_length m.Vars (n, v)⟩
  | some i =>
    exact ⟨i, list_set_get?_self _ i _ (by simpa using varsFind_lt _ _ _ hf)⟩

theorem processTag_Vars_cases (m : Markup) (t : TagNode) :
    (processTag m t).1.Vars = m.Vars
    ∨ ∃ n v, (processTag m t).1.Vars = (setVar m n v).1.Vars := by
  unfold processTag
  split
  · exact Or.inl rfl
  split
  · exact Or.inl rfl
  split
  · exact Or.inl rfl
  split
  · split
    · exact Or.inl rfl
    split
    · exact Or.inl rfl
    split
    · exact Or.inl rfl
    · exact Or.inr ⟨_, _, rfl⟩
  · exact Or.inl rfl

theorem parse_vars_names_nodup (ts : List TagNode) :
    ((parse ts).1.Vars.map Prod.fst).Nodup := by
  suffices h : ∀ (ts : List TagNode) (m : Markup) (g : List String),
      (m.Vars.map Prod.fst).Nodup →
      (((ts.foldl parseStep (m, g)).1.Vars.map Prod.fst)).Nodup by
    exact h ts newMarkup [] (by simp [newMarkup])
  intro ts
  induction ts with
  | nil => exact fun m g h => h
  | cons t ts ih =>
    intro m g h
    simp only [List.foldl_cons]
    apply ih
    rcases processTag_Vars_cases m t with hv | ⟨n, v, hv⟩
    · simpa [parseStep, hv] using h
    · simp only [parseStep, hv]
      exact setVar_nodup m n v h

/-! Sample tags used by the witness theorems. -/

def sampleVarTag (n v : String) : TagNode :=
  { Name := tagVariable, Attributes := [{ Name := attrName, Value := n }],
    Body := some { Content := v, Inline := true } }

def samplePartialTag (n v : String) : TagNode :=
  { Name := tagPartialName, Attributes := [{ Name := attrName, Value := n }],
    Body := some { Content := v, Inline := false } }

def sampleFilenameTag (v : String) : TagNode :=
  { Name := tagFilename, Attributes := [],
    Body := some { Content := v, Inline := true } }

def sampleTemplateTag (v : String) : TagNode :=
  { Name := tagTemplate, Attributes := [],
    Body := some { Content := v, Inline := false } }

/-! The claim theorems about the document assembler. -/

/-- C1: if a variable tag defines a name that an earlier variable tag already
defined, then the second definition's expression source replaces the first
one's value in place, at the first definition's position in the ordered
variables sequence (it is not moved to the end), and a non-fatal diagnostic
is emitted. -/
theorem c1_variable_redefinition_in_place (ts : List TagNode) (t : TagNode)
    (name : String) (i : Nat)
    (hn : t.Name = tagVariable)
    (ha : (parseTagNameAttr t).1 = some name)
    (hb : ∃ b, t.Body = some b)
    (hi : varsFind (parse ts).1.Vars name = some i) :
    (parse (ts ++ [t])).1.Vars
        = (parse ts).1.Vars.set i (name, parseScriptBody t)
    ∧ (parse (ts ++ [t])).2 = (parse ts).2 ++ [varOverwriteMsg name] := by
  obtain ⟨b, hb⟩ := hb
  rw [parse_append_single, processTag_of_variable (parse ts).1 t name b hn ha hb]
  unfold setVar
  rw [hi]
  exact ⟨rfl, rfl⟩

/-- C1 witness: redefining variable `x` replaces its value at position 0 and
emits the overwrite diagnostic. -/
theorem c1_variable_redefinition_in_place_witness :
    varsFind (parse [sampleVarTag "x" "1"]).1.Vars "x" = some 0
    ∧ ((parse ([sampleVarTag "x" "1"] ++ [sampleVarTag "x" "2"])).1.Vars
        = (parse [sampleVarTag "x" "1"]).1.Vars.set 0
            ("x", parseScriptBody (sampleVarTag "x" "2"))
      ∧ (parse ([sampleVarTag "x" "1"] ++ [sampleVarTag "x" "2"])).2
        = (parse [sampleVarTag "x" "1"]).2 ++ [varOverwriteMsg "x"]) :=
  ⟨by decide,
   c1_variable_redefinition_in_place [sampleVarTag "x" "1"] (sampleVarTag "x" "2")
     "x" 0 (by decide) (by decide) ⟨{ Content := "2", Inline := true }, by decide⟩
     (by decide)⟩

/-- C2: a `filename` or `skipif` tag carrying a body stores that body's
expression source into the corresponding scalar document field, and a later
tag of the same name silently overwrites the earlier one: the resulting
field is that of the last such tag and no diagnostic is emitted. -/
theorem c2_scalar_fields_silent_overwrite (ts : List TagNode) (t : TagNode)
    (b : BodyNode)
    (hb : t.Body = some b)
    (hn : t.Name = tagFilename ∨ t.Name = tagSkip) :
    (t.Name = tagFilename →
        (parse (ts ++ [t])).1.Filename = parseScriptBody t
        ∧ (parse (ts ++ [t])).1.Skip = (parse ts).1.Skip)
    ∧ (t.Name = tagSkip →
        (parse (ts ++ [t])).1.Skip = parseScriptBody t
        ∧ (parse (ts ++ [t])).1.Filename = (parse ts).1.Filename)
    ∧ (parse (ts ++ [t])).2 = (parse ts).2 := by
  refine ⟨fun hf => ?_, fun hs => ?_, ?_⟩
  · rw [parse_append_single, processTag_of_filename (parse ts).1 t hf]
    exact ⟨rfl, rfl⟩
  · rw [parse_append_single, processTag_of_skip (parse ts).1 t hs]
    exact ⟨rfl, rfl⟩
  · rcases hn with hf | hs
    · rw [parse_append_single, processTag_of_filename (parse ts).1 t hf]
      simp
    · rw [parse_append_single, processTag_of_skip (parse ts).1 t hs]
      simp

/-- C2 witness: a second `filename` tag overwrites the first with no
diagnostic. -/
theorem c2_scalar_fields_silent_overwrite_witness :
    (sampleFilenameTag "b").Body = some { Content := "b", Inline := true }
    ∧ ((sampleFilenameTag "b").Name = tagFilename →
        (parse ([sampleFilenameTag "a"] ++ [sampleFilenameTag "b"])).1.Filename
          = parseScriptBody (sampleFilenameTag "b")
        ∧ (parse ([sampleFilenameTag "a"] ++ [sampleFilenameTag "b"])).1.Skip
          = (parse [sampleFilenameTag "a"]).1.Skip)
    ∧ (parse ([sampleFilenameTag "a"] ++ [sampleFilenameTag "b"])).2
        = (parse [sampleFilenameTag "a"]).2 :=
  ⟨by decide,
   (c2_scalar_fields_silent_overwrite [sampleFilenameTag "a"] (sampleFilenameTag "b")
      { Content := "b", Inline := true } (by decide) (Or.inl (by decide))).1,
   (c2_scalar_fields_silent_overwrite [sampleFilenameTag "a"] (sampleFilenameTag "b")
      { Content := "b", Inline := true } (by decide) (Or.inl (by decide))).2.2⟩

/-- C3: for `filename`, `skipif` and `variable` tags with a body, an
inline body is stored in single-expression script-source form (wrapped as
one expression to be evaluated) while a multi-line body is stored verbatim
as a full script block; `template` and `partial` bodies are stored verbatim
regardless of mode. -/
theorem c3_script_source_forms (ts : List TagNode) (t : TagNode) (b : BodyNode)
    (hb : t.Body = some b) :
    (t.Name = tagFilename →
      (parse (ts ++ [t])).1.Filename
        = (if b.Inline then ScriptSource.expr b.Content else ScriptSource.block b.Content))
    ∧ (t.Name = tagSkip →
      (parse (ts ++ [t])).1.Skip
        = (if b.Inline then ScriptSource.expr b.Content else ScriptSource.block b.Content))
    ∧ (∀ name, t.Name = tagVariable → (parseTagNameAttr t).1 = some name →
      ∃ i, (parse (ts ++ [t])).1.Vars.get? i
        = some (name,
            if b.Inline then ScriptSource.expr b.Content else ScriptSource.block b.Content))
    ∧ (t.Name = tagTemplate → (parse (ts ++ [t])).1.Body = b.Content)
    ∧ (∀ name, t.Name = tagPartialName → (parseTagNameAttr t).1 = some name →
      (parse (ts ++ [t])).1.Partials name = some b.Content) := by
  have hsb : parseScriptBody t
      = (if b.Inline then ScriptSource.expr b.Content else ScriptSource.block b.Content) := by
    unfold parseScriptBody wrapInlineScript
    rw [hb]
  refine ⟨fun hf => ?_, fun hs => ?_, fun name hv ha => ?_, fun ht => ?_, fun name hp ha => ?_⟩
  · rw [parse_append_single, processTag_of_filename (parse ts).1 t hf]
    exact hsb
  · rw [parse_append_single, processTag_of_skip (parse ts).1 t hs]
    exact hsb
  · rw [parse_append_single, processTag_of_variable (parse ts).1 t name b hv ha hb, ← hsb]
    exact setVar_stored (parse ts).1 name (parseScriptBody t)
  · rw [parse_append_single, processTag_of_template (parse ts).1 t ht]
    unfold parseBody
    rw [hb]
  · rw [parse_append_single, processTag_of_partial (parse ts).1 t name b hp ha hb]
    unfold setPartial parseBody
    rw [hb]
    simp

/-- C3 witness: an inline `filename` body is stored wrapped as a single
expression; a multi-line `template` body is stored verbatim. -/
theorem c3_script_source_forms_witness :
    (sampleFilenameTag "e").Body = some { Content := "e", Inline := true }
    ∧ ((sampleFilenameTag "e").Name = tagFilename →
      (parse ([] ++ [sampleFilenameTag "e"])).1.Filename
        = (if ({ Content := "e", Inline := true } : BodyNode).Inline
            then ScriptSource.expr "e" else ScriptSource.block "e"))
    ∧ ((sampleTemplateTag "t").Name = tagTemplate →
      (parse ([] ++ [sampleTemplateTag "t"])).1.Body = "t") :=
  ⟨by decide,
   (c3_script_source_forms [] (sampleFilenameTag "e")
      { Content := "e", Inline := true } (by decide)).1,
   (c3_script_source_forms [] (sampleTemplateTag "t")
      { Content := "t", Inline := false } (by decide)).2.2.2.1⟩

/-- C4: a `partial` or `variable` tag lacking a usable `name` attribute or
lacking a body is skipped: the document is unchanged by that tag, exactly
one non-fatal diagnostic is emitted, and the remaining tags still produce
the same document. -/
theorem c4_skip_tag_missing_name_or_body (m : Markup) (t : TagNode)
    (ts us : List TagNode)
    (hn : t.Name = tagPartialName ∨ t.Name = tagVariable)
    (hmiss : (parseTagNameAttr t).1 = none ∨ t.Body = none) :
    (processTag m t).1 = m
    ∧ (processTag m t).2.length = 1
    ∧ (parse (ts ++ t :: us)).1 = (parse (ts ++ us)).1 := by
  have hskip : ∀ m' : Markup, (processTag m' t).1 = m' ∧ (processTag m' t).2.length = 1 := by
    intro m'
    by_cases ha : (parseTagNameAttr t).1 = none
    · rw [processTag_of_missing_name m' t hn ha]
      exact ⟨rfl, rfl⟩
    · obtain ⟨name, hname⟩ := Option.ne_none_iff_exists'.mp ha
      have hbody : t.Body = none := by
        rcases hmiss with h | h
        · exact absurd h ha
        · exact h
      rw [processTag_of_missing_body m' t name hn hname hbody]
      exact ⟨rfl, rfl⟩
  refine ⟨(hskip m).1, (hskip m).2, ?_⟩
  have heq : ts ++ t :: us = (ts ++ [t]) ++ us := by simp
  rw [heq]
  unfold parse
  rw [foldl_parseStep_append, foldl_parseStep_append, foldl_parseStep_append]
  cases hst : ts.foldl parseStep (newMarkup, []) with
  | mk m0 g0 =>
    have h1 : [t].foldl parseStep (m0, g0) = (m0, g0 ++ (processTag m0 t).2) := by
      simp [parseStep, (hskip m0).1]
    rw [h1]
    exact foldl_parseStep_fst m0 _ g0 us

/-- C4 witness: a `variable` tag with no attributes is skipped with one
diagnostic and does not change the assembled document. -/
theorem c4_skip_tag_missing_name_or_body_witness :
    (parseTagNameAttr { Name := tagVariable, Attributes := [], Body := none }).1 = none
    ∧ ((processTag newMarkup { Name := tagVariable, Attributes := [], Body := none }).1
          = newMarkup
      ∧ (processTag newMarkup { Name := tagVariable, Attributes := [], Body := none }).2.length = 1
      ∧ (parse ([sampleVarTag "x" "1"]
            ++ { Name := tagVariable, Attributes := [], Body := none }
              :: [sampleVarTag "y" "2"])).1
          = (parse ([sampleVarTag "x" "1"] ++ [sampleVarTag "y" "2"])).1) :=
  ⟨by decide,
   c4_skip_tag_missing_name_or_body newMarkup
     { Name := tagVariable, Attributes := [], Body := none }
     [sampleVarTag "x" "1"] [sampleVarTag "y" "2"]
     (Or.inr (by decide)) (Or.inl (by decide))⟩

/-- C5: in every assembled document the ordered variables sequence holds no
name twice; `setVar` preserves the name sequence exactly when the name is
already present (first-seen position retained) and appends the name at the
end otherwise, preserving nodup; `setPartial` and the scalar field stores
leave the variables sequence untouched. -/
theorem c5_vars_nodup_invariant :
    (∀ ts : List TagNode, ((parse ts).1.Vars.map Prod.fst).Nodup)
    ∧ (∀ (m : Markup) (n : String) (v : ScriptSource),
        (setVar m n v).1.Vars.map Prod.fst
          = if n ∈ m.Vars.map Prod.fst then m.Vars.map Prod.fst
            else m.Vars.map Prod.fst ++ [n])
    ∧ (∀ (m : Markup) (n : String) (v : ScriptSource),
        (m.Vars.map Prod.fst).Nodup → ((setVar m n v).1.Vars.map Prod.fst).Nodup)
    ∧ (∀ (m : Markup) (n v : String), (setPartial m n v).1.Vars = m.Vars)
    ∧ (∀ (m : Markup) (t : TagNode),
        t.Name = tagFilename ∨ t.Name = tagSkip ∨ t.Name = tagTemplate →
        (processTag m t).1.Vars = m.Vars) :=
  ⟨parse_vars_names_nodup,
   setVar_names,
   setVar_nodup,
   fun _ _ _ => rfl,
   fun m t h => by
     rcases h with h | h | h
     · rw [processTag_of_filename m t h]
     · rw [processTag_of_skip m t h]
     · rw [processTag_of_template m t h]⟩

/-- C5 witness: instance of the invariant on a concrete document and
concrete assembler operations. -/
theorem c5_vars_nodup_invariant_witness :
    ((parse [sampleVarTag "x" "1", sampleVarTag "x" "2", sampleVarTag "y" "3"]).1.Vars.map
        Prod.fst).Nodup
    ∧ (setVar newMarkup "x" (ScriptSource.expr "1")).1.Vars.map Prod.fst
        = (if "x" ∈ newMarkup.Vars.map Prod.fst then newMarkup.Vars.map Prod.fst
            else newMarkup.Vars.map Prod.fst ++ ["x"])
    ∧ (setPartial newMarkup "p" "v").1.Vars = newMarkup.Vars
    ∧ (processTag newMarkup (sampleFilenameTag "f")).1.Vars = newMarkup.Vars :=
  ⟨c5_vars_nodup_invariant.1 [sampleVarTag "x" "1", sampleVarTag "x" "2", sampleVarTag "y" "3"],
   c5_vars_nodup_invariant.2.1 newMarkup "x" (ScriptSource.expr "1"),
   c5_vars_nodup_invariant.2.2.2.1 newMarkup "p" "v",
   c5_vars_nodup_invariant.2.2.2.2 newMarkup (sampleFilenameTag "f") (Or.inl (by decide))⟩

theorem getLast?_cons_getD {α : Type} (x : α) (l : List α) :
    (x :: l).getLast? = some ((l.getLast?).getD x) := by
  induction l generalizing x with
  | nil => rfl
  | cons y ys ih =>
    rw [List.getLast?_cons_cons, ih y]
    simp

theorem lastNameFold (attrs : List AttrNode) (init : String) :
    attrs.foldl (fun acc attr => if attr.Name = attrName then attr.Value else acc) init
      = (((attrs.filter (fun a => a.Name = attrName)).map AttrNode.Value).getLast?).getD init := by
  induction attrs generalizing init with
  | nil => rfl
  | cons a rest ih =>
    by_cases h : a.Name = attrName
    · simp only [List.foldl_cons, if_pos h]
      rw [ih a.Value]
      simp [h, getLast?_cons_getD]
    · simp only [List.foldl_cons, if_neg h]
      rw [ih init]
      simp [h]

/-- C10: among the attributes of a tag, the last attribute named `name`
wins (later duplicates override earlier ones); and a last `name` attribute
whose value is the empty string is treated as missing, so a `partial` or
`variable` tag carrying it is skipped with a non-fatal diagnostic. -/
theorem c10_last_name_attribute_wins (t : TagNode) (m : Markup) :
    (∀ v, ((t.Attributes.filter (fun a => a.Name = attrName)).map AttrNode.Value).getLast?
          = some v →
      v ≠ "" → parseTagNameAttr t = (some v, []))
    ∧ (((t.Attributes.filter (fun a => a.Name = attrName)).map AttrNode.Value).getLast?
          = some "" →
      parseTagNameAttr t = (none, [missingNameMsg t.Name])
      ∧ ((t.Name = tagPartialName ∨ t.Name = tagVariable) →
          processTag m t = (m, [missingNameMsg t.Name]))) := by
  constructor
  · intro v hv hne
    unfold parseTagNameAttr
    rw [lastNameFold, hv]
    simp [hne]
  · intro hv
    have hattr : parseTagNameAttr t = (none, [missingNameMsg t.Name]) := by
      unfold parseTagNameAttr
      rw [lastNameFold, hv]
      simp
    refine ⟨hattr, fun hn => ?_⟩
    exact processTag_of_missing_name m t hn (by rw [hattr])

/-- A variable tag with two `name` attributes, the later one nonempty. -/
def dupNameTag : TagNode :=
  { Name := tagVariable, Attributes := [⟨"name", "a"⟩, ⟨"name", "b"⟩],
    Body := some { Content := "1", Inline := true } }

/-- A variable tag whose later `name` attribute is the empty string. -/
def emptyNameTag : TagNode :=
  { Name := tagVariable, Attributes := [⟨"name", "a"⟩, ⟨"name", ""⟩],
    Body := none }

/-- C10 witness: with two `name` attributes the later one wins; with a
later empty `name` attribute the tag is skipped with a diagnostic. -/
theorem c10_last_name_attribute_wins_witness :
    ((dupNameTag.Attributes.filter
        (fun a => a.Name = attrName)).map AttrNode.Value).getLast? = some "b"
    ∧ parseTagNameAttr dupNameTag = (some "b", [])
    ∧ processTag newMarkup emptyNameTag
        = (newMarkup, [missingNameMsg tagVariable]) :=
  ⟨by decide,
   (c10_last_name_attribute_wins dupNameTag newMarkup).1 "b" (by decide) (by decide),
   ((c10_last_name_attribute_wins emptyNameTag newMarkup).2 (by decide)).2 (Or.inr rfl)⟩

end template

namespace markup

/-!
The tokenizer of the `markup` package.  Modelled from the spec: the
implementation file of the tokenizer is not among the available sources
(only its test vectors are), so the scanner below follows the
specification's §4.1 behaviour:

* line-start context: comments (`#` through and including the newline),
  blank lines, the misplaced-character error, identifier scans;
* identifier scans: word characters and interior dashes, leading-dash and
  trailing-dash rejection, the invalid-character-within-identifier error;
* tag-body context: merged space runs, attributes
  (`-name="value"` with the quotes kept in the string token), body
  delimiters;
* body capture: inline mode up to the first close-delimiter occurrence, and
  multi-line mode accumulating whole lines until a line equal to the close
  delimiter after discarding only its own trailing spaces/tabs.

Strings are modelled as `List Char`.  Tokens carry kind and literal text;
positions are omitted (the repository's own test harness compares tokens
with position checking disabled).  Situations the spec leaves open (the
to-do errors listed in the test file: unclosed quotes, unmatched body
delimiters, characters after a close delimiter, attributes without
assignment) are modelled as error tokens; no claim depends on them.
The delimiters are nonempty — the empty configuration is replaced by the
default literals before scanning starts — and the scanner functions carry
that fact so the recursion is well-founded.
-/

inductive tokenType where
  | tokenError
  | tokenEOF
  | tokenSpace
  | tokenNewline
  | tokenIdentifier
  | tokenLeftDelim
  | tokenRightDelim
  | tokenString
  | tokenBody
  | tokenAttrDeclare
  | tokenAssign
deriving DecidableEq, Repr

/-- A token: kind plus literal text (positions omitted, compared in the
repository's tests with `checkPos = false`). -/
structure token where
  typ : tokenType
  val : List Char
deriving DecidableEq, Repr

open tokenType

def eofTok : token := ⟨tokenEOF, []⟩

def newlineTok : token := ⟨tokenNewline, ['\n']⟩

def errTok (msg : List Char) : token := ⟨tokenError, msg⟩

/-- Space or tab. -/
def isSpaceChar (c : Char) : Bool := c = ' ' || c = '\t'

/-- A word character (letters, digits, underscore). -/
def isWordChar (c : Char) : Bool := c.isAlphanum || c = '_'

/-- A character allowed inside an identifier: word characters and dash. -/
def isIdentChar (c : Char) : Bool := isWordChar c || c = '-'

def hexDigitChar (n : Nat) : Char :=
  if n < 10 then Char.ofNat ('0'.toNat + n) else Char.ofNat ('A'.toNat + (n - 10))

def natHex : Nat → List Char
  | 0 => []
  | n + 1 => natHex ((n + 1) / 16) ++ [hexDigitChar ((n + 1) % 16)]
decreasing_by exact Nat.div_lt_self (Nat.succ_pos n) (by omega)

/-- Go's `%#U` format: `U+XXXX '<char>'` with at least four hex digits. -/
def codepointStr (c : Char) : List Char :=
  "U+".toList ++ List.replicate (4 - (natHex c.toNat).length) '0'
    ++ natHex c.toNat ++ " '".toList ++ [c] ++ "'".toList

def invalidCharMsg (c : Char) : List Char :=
  "invalid character ".toList ++ codepointStr c

def invalidCharInIdentMsg (c : Char) : List Char :=
  invalidCharMsg c ++ " within tag identifier, space or newline expected".toList

def trailingDashMsg : List Char :=
  "invalid character U+002D '-' at the end of the identifier".toList

def misplacedCharMsg (c : Char) : List Char :=
  "misplaced character ".toList ++ codepointStr c
    ++ ", tag identifier must start on the newline".toList

/-- Strip trailing spaces/tabs (only the line's own trailing whitespace). -/
def rstrip (l : List Char) : List Char := (l.reverse.dropWhile isSpaceChar).reverse

/-- Valid terminator after an identifier: end of input, space/tab, newline,
`=`, or the open delimiter. -/
def termOk (left : List Char) (rest : List Char) : Bool :=
  match rest with
  | [] => true
  | d :: _ => isSpaceChar d || d = '\n' || d = '=' || left.isPrefixOf rest

/-- Split `l` at the first occurrence of `delim` (which must be nonempty):
returns the text before the occurrence and the text after it. -/
def breakOnSub (delim : List Char) : List Char → Option (List Char × List Char)
  | [] => none
  | c :: r =>
    if !delim.isEmpty && delim.isPrefixOf (c :: r) then
      some ([], (c :: r).drop delim.length)
    else
      match breakOnSub delim r with
      | some (pre, post) => some (c :: pre, post)
      | none => none

/-- Join an accumulated multi-line body with the next line. -/
def joinAcc (acc : Option (List Char)) (line : List Char) : List Char :=
  match acc with
  | none => line
  | some t => t ++ '\n' :: line

theorem dropWhile_length_le (p : Char → Bool) (l : List Char) :
    (l.dropWhile p).length ≤ l.length := by
  induction l with
  | nil => simp
  | cons c r ih =>
    by_cases hp : p c
    · rw [List.dropWhile_cons, if_pos hp]
      exact le_trans ih (by simp)
    · rw [List.dropWhile_cons, if_neg hp]

theorem rstrip_length_le (l : List Char) : (rstrip l).length ≤ l.length := by
  have := dropWhile_length_le isSpaceChar l.reverse
  simpa [rstrip] using this

theorem breakOnSub_eq (delim : List Char) (l pre post : List Char)
    (h : breakOnSub delim l = some (pre, post)) :
    l = pre ++ delim ++ post ∧ delim ≠ [] := by
  induction l generalizing pre with
  | nil => simp [breakOnSub] at h
  | cons c r ih =>
    unfold breakOnSub at h
    by_cases hp : (!delim.isEmpty && delim.isPrefixOf (c :: r)) = true
    · rw [if_pos hp] at h
      have hinj := Option.some.inj h
      have h1 : pre = [] := by
        have := congrArg Prod.fst hinj
        simpa using this.symm
      have h2 : post = (c :: r).drop delim.length := by
        have := congrArg Prod.snd hinj
        simpa using this.symm
      have hpre : delim.isPrefixOf (c :: r) = true := by
        have := hp
        simp only [Bool.and_eq_true] at this
        exact this.2
      have hne : delim ≠ [] := by
        intro he
        simp [he] at hp
      obtain ⟨t, ht⟩ := (List.isPrefixOf_iff_prefix.mp hpre)
      constructor
      · rw [h1, h2, ← ht]
        simp
      · exact hne
    · rw [if_neg hp] at h
      cases hb : breakOnSub delim r with
      | none => rw [hb] at h; exact absurd h (by simp)
      | some pp =>
        rw [hb] at h
        cases pp with
        | mk pre' post' =>
          have := Option.some.inj h
          have hpre : pre = c :: pre' := by
            have := congrArg Prod.fst this
            simpa using this.symm
          have hpost : post' = post := by
            have := congrArg Prod.snd this
            simpa using this
          obtain ⟨hr, hne⟩ := ih pre' (by rw [hpost] at hb; exact hb)
          refine ⟨?_, hne⟩
          rw [hpre, hr]
          simp

def notNlChar (c : Char) : Bool := c != '\n'

def notQuoteChar (c : Char) : Bool := c != '"'

def unexpectedEOFMsg : List Char := "unexpected end of input".toList

def expectedAssignMsg : List Char := "expected attribute assignment".toList

def unclosedQuoteMsg : List Char := "unclosed quote".toList

def unclosedBodyMsg : List Char := "unclosed body".toList

def expectedValueMsg : List Char := "expected attribute value".toList

theorem dropWhile_cons_length {p : Char → Bool} {l r2 : List Char} {d : Char}
    (h : l.dropWhile p = d :: r2) : r2.length < l.length := by
  have := dropWhile_length_le p l
  rw [h] at this
  simp at this
  omega

theorem two_mul_dropWhile_lt (p : Char → Bool) (c : Char) (r : List Char) :
    2 * (r.dropWhile p).length < 2 * (c :: r).length := by
  have := dropWhile_length_le p r
  simp
  omega

theorem drop_prefix_length_lt (left : List Char) (c : Char) (r : List Char)
    (hl : left ≠ []) (hpre : left.isPrefixOf (c :: r) = true) :
    2 * ((c :: r).drop left.length).length < 2 * (c :: r).length := by
  have h1 : 0 < left.length := List.length_pos.mpr hl
  have h2 : left.length ≤ (c :: r).length :=
    (List.isPrefixOf_iff_prefix.mp hpre).length_le
  simp [List.length_drop]
  omega

theorem breakOnSub_post_lt (right l pre post : List Char)
    (hb : breakOnSub right l = some (pre, post)) :
    2 * post.length < 2 * l.length := by
  obtain ⟨heq, hne⟩ := breakOnSub_eq right l pre post hb
  have h1 : 0 < right.length := List.length_pos.mpr hne
  rw [heq]
  simp
  omega

theorem multiline_close_lt (right l : List Char) (hr : right ≠ [])
    (hcl : rstrip (l.takeWhile notNlChar) = right) :
    2 * ((l.takeWhile notNlChar).drop right.length ++ l.dropWhile notNlChar).length
      < 2 * l.length := by
  have hsum : (l.takeWhile notNlChar).length + (l.dropWhile notNlChar).length = l.length := by
    rw [← List.length_append, List.takeWhile_append_dropWhile]
  have h1 : 0 < right.length := List.length_pos.mpr hr
  have h2 : right.length ≤ (l.takeWhile notNlChar).length := by
    have h3 := congrArg List.length hcl
    have h4 := rstrip_length_le (l.takeWhile notNlChar)
    omega
  simp [List.length_drop]
  omega

mutual

/-- Line-start context (spec §4.1): comments, blank lines, the misplaced
character error, or an identifier (tag name) scan. -/
def lexLineStart (left right : List Char) (hl : left ≠ []) (hr : right ≠ []) :
    List Char → List token
  | [] => [eofTok]
  | c :: r =>
    if c = '#' then
      match h : r.dropWhile notNlChar with
      | [] => [eofTok]
      | _ :: r2 => lexLineStart left right hl hr r2
    else if c = '\n' then
      lexLineStart left right hl hr r
    else if isSpaceChar c then
      match h2 : (c :: r).dropWhile isSpaceChar with
      | [] => [eofTok]
      | d :: r2 =>
        if d = '\n' then lexLineStart left right hl hr r2
        else [errTok (misplacedCharMsg d)]
    else scanTagName left right hl hr (c :: r)
termination_by l => 2 * l.length + 1
decreasing_by
all_goals first
  | (have hx := dropWhile_cons_length h
     simp only [List.length_cons]
     simp only [List.length_cons] at hx
     omega)
  | (have hx := dropWhile_cons_length h2
     simp only [List.length_cons]
     simp only [List.length_cons] at hx
     omega)
  | (simp only [List.length_cons]
     omega)

/-- Identifier scan for a tag name (spec §4.1): word characters and interior
dashes; leading dash or other openers are invalid; a trailing dash before
the terminator is rejected; a disallowed character mid-scan is rejected. -/
def scanTagName (left right : List Char) (hl : left ≠ []) (hr : right ≠ []) :
    List Char → List token
  | [] => [eofTok]
  | c :: r =>
    if hw : isWordChar c then
      if termOk left (r.dropWhile isIdentChar) then
        if ((c :: r).takeWhile isIdentChar).getLast? = some '-' then
          [errTok trailingDashMsg]
        else
          ⟨tokenIdentifier, (c :: r).takeWhile isIdentChar⟩
            :: lexTagBody left right hl hr (r.dropWhile isIdentChar)
      else
        match r.dropWhile isIdentChar with
        | [] => [eofTok]
        | d :: _ => [errTok (invalidCharInIdentMsg d)]
    else [errTok (invalidCharMsg c)]
termination_by l => 2 * l.length
decreasing_by
all_goals exact two_mul_dropWhile_lt _ _ _

/-- Tag-body context (spec §4.1): merged space runs, newline ends the tag,
`-` starts an attribute, the open delimiter starts a body, anything else is
invalid. -/
def lexTagBody (left right : List Char) (hl : left ≠ []) (hr : right ≠ []) :
    List Char → List token
  | [] => [eofTok]
  | c :: r =>
    if c = '\n' then newlineTok :: lexLineStart left right hl hr r
    else if hs : isSpaceChar c then
      ⟨tokenSpace, (c :: r).takeWhile isSpaceChar⟩
        :: lexTagBody left right hl hr (r.dropWhile isSpaceChar)
    else if c = '-' then
      ⟨tokenAttrDeclare, ['-']⟩ :: scanAttrName left right hl hr r
    else if hpre : left.isPrefixOf (c :: r) then
      ⟨tokenLeftDelim, left⟩ :: lexBodyContent left right hl hr ((c :: r).drop left.length)
    else [errTok (invalidCharMsg c)]
termination_by l => 2 * l.length
decreasing_by
all_goals first
  | exact two_mul_dropWhile_lt _ _ _
  | exact drop_prefix_length_lt _ _ _ hl hpre
  | (simp only [List.length_cons]
     omega)

/-- Identifier scan for an attribute name followed by the required `=`
(spec §4.1). -/
def scanAttrName (left right : List Char) (hl : left ≠ []) (hr : right ≠ []) :
    List Char → List token
  | [] => [errTok unexpectedEOFMsg]
  | c :: r =>
    if hw : isWordChar c then
      match he : (c :: r).dropWhile isIdentChar with
      | '=' :: r2 =>
        if ((c :: r).takeWhile isIdentChar).getLast? = some '-' then
          [errTok trailingDashMsg]
        else
          ⟨tokenIdentifier, (c :: r).takeWhile isIdentChar⟩ :: ⟨tokenAssign, ['=']⟩
            :: scanString left right hl hr r2
      | [] => [errTok expectedAssignMsg]
      | d :: _ =>
        if isSpaceChar d || d = '\n' then [errTok expectedAssignMsg]
        else [errTok (invalidCharInIdentMsg d)]
    else [errTok (invalidCharMsg c)]
termination_by l => 2 * l.length
decreasing_by
all_goals
  (have hx := dropWhile_cons_length he
   simp only [List.length_cons]
   simp only [List.length_cons] at hx
   omega)

/-- Quoted attribute value: the string token keeps the delimiting quotes
verbatim; the first subsequent quote terminates the literal (spec §4.1). -/
def scanString (left right : List Char) (hl : left ≠ []) (hr : right ≠ []) :
    List Char → List token
  | '"' :: r =>
    match hq : r.dropWhile notQuoteChar with
    | '"' :: r2 =>
      ⟨tokenString, '"' :: (r.takeWhile notQuoteChar ++ ['"'])⟩
        :: lexTagBody left right hl hr r2
    | _ => [errTok unclosedQuoteMsg]
  | _ => [errTok expectedValueMsg]
termination_by l => 2 * l.length
decreasing_by
all_goals
  (have hx := dropWhile_cons_length hq
   simp only [List.length_cons]
   simp only [List.length_cons] at hx
   omega)

/-- Body content, entered right after the open delimiter (spec §4.1): peek
past spaces/tabs; a newline selects multi-line mode (the peeked spaces are
consumed); otherwise inline mode captures verbatim text, spaces included,
up to the first close-delimiter occurrence. -/
def lexBodyContent (left right : List Char) (hl : left ≠ []) (hr : right ≠ [])
    (l : List Char) : List token :=
  match hd : l.dropWhile isSpaceChar with
  | '\n' :: r2 => newlineTok :: lexMultiline left right hl hr none r2
  | _ =>
    match hb : breakOnSub right l with
    | some (pre, post) =>
      (if pre.isEmpty then [⟨tokenRightDelim, right⟩]
       else [⟨tokenBody, pre⟩, ⟨tokenRightDelim, right⟩])
        ++ lexAfterClose left right hl hr post
    | none => [errTok unclosedBodyMsg]
termination_by 2 * l.length
decreasing_by
all_goals first
  | exact breakOnSub_post_lt _ _ _ _ hb
  | (have hx := dropWhile_cons_length hd
     omega)

/-- Multi-line body capture (spec §4.1): accumulate raw text line by line
until a line whose content, after discarding only its own trailing
spaces/tabs, equals the close delimiter exactly; then emit the accumulated
text as one body token, the newline that ended the last body line, and the
close-delimiter token. -/
def lexMultiline (left right : List Char) (hl : left ≠ []) (hr : right ≠ [])
    (acc : Option (List Char)) (l : List Char) : List token :=
  if hcl : rstrip (l.takeWhile notNlChar) = right then
    (match acc with
      | none => [⟨tokenRightDelim, right⟩]
      | some txt => [⟨tokenBody, txt⟩, newlineTok, ⟨tokenRightDelim, right⟩])
      ++ lexAfterClose left right hl hr
          ((l.takeWhile notNlChar).drop right.length ++ l.dropWhile notNlChar)
  else
    match hm : l.dropWhile notNlChar with
    | [] => [errTok unclosedBodyMsg]
    | _ :: r2 => lexMultiline left right hl hr (some (joinAcc acc (l.takeWhile notNlChar))) r2
termination_by 2 * l.length
decreasing_by
all_goals first
  | exact multiline_close_lt _ _ hr hcl
  | (have hx := dropWhile_cons_length hm
     omega)

/-- After the close delimiter in either mode (spec §4.1): discard trailing
spaces/tabs, then the newline or end of input ends the tag. -/
def lexAfterClose (left right : List Char) (hl : left ≠ []) (hr : right ≠ [])
    (l : List Char) : List token :=
  match ha : l.dropWhile isSpaceChar with
  | [] => [eofTok]
  | '\n' :: r2 => newlineTok :: lexLineStart left right hl hr r2
  | d :: _ => [errTok (invalidCharMsg d)]
termination_by 2 * l.length
decreasing_by
all_goals
  (have hx := dropWhile_cons_length ha
   omega)

end

def defaultLeftDelim : List Char := ['<', '<']

def defaultRightDelim : List Char := ['>', '>']

/-- Empty delimiter configuration falls back to the fixed default literal
pair (spec §4.1). -/
def withDefault (d v : List Char) : List Char := if v.isEmpty then d else v

theorem withDefault_ne (d v : List Char) (hd : d ≠ []) : withDefault d v ≠ [] := by
  unfold withDefault
  split
  · exact hd
  · rename_i h
    intro he
    subst he
    simp at h

/-- `lex`: scan a whole input with the configured delimiters (empty
configuration replaced by the defaults). -/
def lex (input left right : List Char) : List token :=
  lexLineStart (withDefault defaultLeftDelim left) (withDefault defaultRightDelim right)
    (withDefault_ne _ _ (by decide)) (withDefault_ne _ _ (by decide)) input

theorem dlne : (['<', '<'] : List Char) ≠ [] := by decide

theorem drne : (['>', '>'] : List Char) ≠ [] := by decide

/-! Generic `takeWhile`/`dropWhile` helper lemmas. -/

theorem mem_takeWhile_pred {p : Char → Bool} {l : List Char} {x : Char}
    (h : x ∈ l.takeWhile p) : p x = true := by
  induction l with
  | nil => simp [List.takeWhile] at h
  | cons c r ih =>
    rw [List.takeWhile_cons] at h
    by_cases hc : p c
    · rw [if_pos hc] at h
      rcases List.mem_cons.mp h with rfl | hm
      · exact hc
      · exact ih hm
    · rw [if_neg hc] at h
      simp at h

theorem takeWhile_all {p : Char → Bool} {l : List Char}
    (h : ∀ x ∈ l, p x = true) : l.takeWhile p = l := by
  induction l with
  | nil => rfl
  | cons c r ih =>
    rw [List.takeWhile_cons, if_pos (h c (by simp))]
    rw [ih (fun x hx => h x (by simp [hx]))]

theorem dropWhile_all {p : Char → Bool} {l : List Char}
    (h : ∀ x ∈ l, p x = true) : l.dropWhile p = [] := by
  induction l with
  | nil => rfl
  | cons c r ih =>
    rw [List.dropWhile_cons, if_pos (h c (by simp))]
    exact ih (fun x hx => h x (by simp [hx]))

theorem takeWhile_append_stop {p : Char → Bool} {xs : List Char} {y : Char} {ys : List Char}
    (hall : ∀ x ∈ xs, p x = true) (hy : p y = false) :
    (xs ++ y :: ys).takeWhile p = xs := by
  induction xs with
  | nil => simp [List.takeWhile_cons, hy]
  | cons c r ih =>
    rw [List.cons_append, List.takeWhile_cons, if_pos (hall c (by simp))]
    rw [ih (fun x hx => hall x (by simp [hx]))]

theorem dropWhile_append_stop {p : Char → Bool} {xs : List Char} {y : Char} {ys : List Char}
    (hall : ∀ x ∈ xs, p x = true) (hy : p y = false) :
    (xs ++ y :: ys).dropWhile p = y :: ys := by
  induction xs with
  | nil => simp [List.dropWhile_cons, hy]
  | cons c r ih =>
    rw [List.cons_append, List.dropWhile_cons, if_pos (hall c (by simp))]
    exact ih (fun x hx => hall x (by simp [hx]))

theorem dropWhile_append_all {p : Char → Bool} {xs ys : List Char}
    (hall : ∀ x ∈ xs, p x = true) :
    (xs ++ ys).dropWhile p = ys.dropWhile p := by
  induction xs with
  | nil => rfl
  | cons c r ih =>
    rw [List.cons_append, List.dropWhile_cons, if_pos (hall c (by simp))]
    exact ih (fun x hx => hall x (by simp [hx]))

theorem dropWhile_head_false {p : Char → Bool} {l r2 : List Char} {d : Char}
    (h : l.dropWhile p = d :: r2) : p d = false := by
  induction l with
  | nil => simp [List.dropWhile] at h
  | cons c r ih =>
    rw [List.dropWhile_cons] at h
    by_cases hc : p c
    · rw [if_pos hc] at h
      exact ih h
    · rw [if_neg hc] at h
      obtain ⟨rfl, -⟩ := List.cons.inj h
      simpa using hc

/-! Step lemmas for the scanner. -/

theorem lexBodyContent_newline (left right : List Char) (hl : left ≠ []) (hr : right ≠ [])
    (rest : List Char) :
    lexBodyContent left right hl hr ('\n' :: rest)
      = newlineTok :: lexMultiline left right hl hr none rest := by
  have hd0 : List.dropWhile isSpaceChar ('\n' :: rest) = '\n' :: rest := by
    rw [List.dropWhile_cons, if_neg (by decide)]
  unfold lexBodyContent
  split
  · rename_i r2 heq
    rw [hd0] at heq
    obtain ⟨-, rfl⟩ := List.cons.inj heq
    rfl
  · rename_i hno
    exact absurd hd0 (hno rest)

theorem joinAcc_assoc (acc : Option (List Char)) (l x : List Char) :
    joinAcc (some (joinAcc acc l)) x = joinAcc acc (l ++ '\n' :: x) := by
  cases acc <;> simp [joinAcc]

theorem lexMultiline_close (left right : List Char) (hl : left ≠ []) (hr : right ≠ [])
    (acc : Option (List Char))
    (hnl : ∀ c ∈ right, notNlChar c = true) (hrs : rstrip right = right) :
    lexMultiline left right hl hr acc right
      = (match acc with
         | none => [⟨tokenType.tokenRightDelim, right⟩]
         | some txt =>
            [⟨tokenType.tokenBody, txt⟩, newlineTok, ⟨tokenType.tokenRightDelim, right⟩])
        ++ [eofTok] := by
  have ht : right.takeWhile notNlChar = right := takeWhile_all hnl
  have hd : right.dropWhile notNlChar = [] := dropWhile_all hnl
  have hac : lexAfterClose left right hl hr ([] ++ []) = [eofTok] := by
    unfold lexAfterClose
    rfl
  rw [lexMultiline.eq_def, dif_pos (by rw [ht, hrs]), ht, hd, List.drop_length, hac]

theorem lexMultiline_step (left right : List Char) (hl : left ≠ []) (hr : right ≠ [])
    (acc : Option (List Char)) (l rest : List Char)
    (hall : ∀ c ∈ l, notNlChar c = true) (hnc : rstrip l ≠ right) :
    lexMultiline left right hl hr acc (l ++ '\n' :: rest)
      = lexMultiline left right hl hr (some (joinAcc acc l)) rest := by
  have ht : (l ++ '\n' :: rest).takeWhile notNlChar = l :=
    takeWhile_append_stop hall (by decide)
  have hd : (l ++ '\n' :: rest).dropWhile notNlChar = '\n' :: rest :=
    dropWhile_append_stop hall (by decide)
  conv_lhs => rw [lexMultiline.eq_def]
  rw [dif_neg (by rw [ht]; exact hnc)]
  split
  · rename_i heq
    rw [hd] at heq
    exact absurd heq (by simp)
  · rename_i d r2 heq
    rw [hd] at heq
    obtain ⟨-, rfl⟩ := List.cons.inj heq
    rw [ht]

theorem lexMultiline_lines (left right : List Char) (hl : left ≠ []) (hr : right ≠ [])
    (ls : List (List Char)) (acc : Option (List Char))
    (hne : ls ≠ [])
    (hlines : ∀ l ∈ ls, (∀ c ∈ l, notNlChar c = true) ∧ rstrip l ≠ right)
    (hnlr : ∀ c ∈ right, notNlChar c = true) (hrs : rstrip right = right) :
    lexMultiline left right hl hr acc (List.intercalate ['\n'] ls ++ '\n' :: right)
      = [⟨tokenType.tokenBody, joinAcc acc (List.intercalate ['\n'] ls)⟩, newlineTok,
         ⟨tokenType.tokenRightDelim, right⟩, eofTok] := by
  induction ls generalizing acc with
  | nil => exact absurd rfl hne
  | cons l ls' ih =>
    obtain ⟨hlnl, hlnc⟩ := hlines l (by simp)
    cases ls' with
    | nil =>
      have hint : List.intercalate ['\n'] [l] = l := by
        simp [List.intercalate, List.intersperse]
      rw [hint, lexMultiline_step left right hl hr acc l right hlnl hlnc,
        lexMultiline_close left right hl hr _ hnlr hrs]
      simp
    | cons l2 ls'' =>
      have hint : List.intercalate ['\n'] (l :: l2 :: ls'')
          = l ++ '\n' :: List.intercalate ['\n'] (l2 :: ls'') := by
        simp [List.intercalate, List.intersperse]
      rw [hint]
      have hassoc : (l ++ '\n' :: List.intercalate ['\n'] (l2 :: ls'')) ++ '\n' :: right
          = l ++ '\n' :: (List.intercalate ['\n'] (l2 :: ls'') ++ '\n' :: right) := by
        simp
      rw [hassoc, lexMultiline_step left right hl hr acc l _ hlnl hlnc]
      rw [ih (some (joinAcc acc l)) (by simp)
        (fun x hx => hlines x (by simp [hx]))]
      rw [joinAcc_assoc]

theorem lex_tag_multiline_prefix (rest : List Char) :
    lex ('t':: 'a':: 'g':: ' ':: '<':: '<':: '\n'::rest) [] []
      = ⟨tokenType.tokenIdentifier, ['t', 'a', 'g']⟩ :: ⟨tokenType.tokenSpace, [' ']⟩
        :: ⟨tokenType.tokenLeftDelim, ['<', '<']⟩ :: newlineTok
        :: lexMultiline ['<', '<'] ['>', '>'] dlne drne none rest := by
  simp [lex, withDefault, lexLineStart, scanTagName, lexTagBody, lexBodyContent_newline,
    isSpaceChar, isWordChar, isIdentChar, termOk, List.isPrefixOf, notNlChar,
    defaultLeftDelim, defaultRightDelim, List.dropWhile_cons, List.takeWhile_cons]

/-- C6: delimiter-like substrings embedded inside a multi-line body never
terminate the body; the body terminates only at a line whose content, after
discarding its own trailing spaces/tabs, equals the close-delimiter literal
exactly.  For any nonempty sequence of body lines none of which strips to
`>>`, the whole line block is captured as one body token (instantiated by
the witness at the spec's example `tag <<\n<<>>\n>>`). -/
theorem c6_multiline_body_embedded_delimiters (ls : List (List Char)) (hne : ls ≠ [])
    (hlines : ∀ l ∈ ls, (∀ c ∈ l, c ≠ '\n') ∧ rstrip l ≠ ['>', '>']) :
    lex ("tag <<\n".toList ++ List.intercalate ['\n'] ls ++ "\n>>".toList) [] []
      = [⟨tokenType.tokenIdentifier, "tag".toList⟩, ⟨tokenType.tokenSpace, [' ']⟩,
         ⟨tokenType.tokenLeftDelim, "<<".toList⟩, newlineTok,
         ⟨tokenType.tokenBody, List.intercalate ['\n'] ls⟩, newlineTok,
         ⟨tokenType.tokenRightDelim, ">>".toList⟩, eofTok] := by
  have hin : "tag <<\n".toList ++ List.intercalate ['\n'] ls ++ "\n>>".toList
      = 't':: 'a':: 'g':: ' ':: '<':: '<':: '\n'
          ::(List.intercalate ['\n'] ls ++ '\n' :: ['>', '>']) := by
    simp
  rw [hin, lex_tag_multiline_prefix,
    lexMultiline_lines ['<', '<'] ['>', '>'] dlne drne ls none hne
      (fun l hml => ⟨fun c hc => by
        simp only [notNlChar, bne_iff_ne, ne_eq]
        exact (hlines l hml).1 c hc, (hlines l hml).2⟩)
      (by decide) (by decide)]
  simp [joinAcc]

/-- C6 witness: the spec's example input `tag <<\n<<>>\n>>` produces exactly
the claimed token sequence, with the embedded `<<>>` kept as body text. -/
theorem c6_multiline_body_embedded_delimiters_witness :
    ([['<', '<', '>', '>']] : List (List Char)) ≠ []
    ∧ (∀ l ∈ ([['<', '<', '>', '>']] : List (List Char)),
        (∀ c ∈ l, c ≠ '\n') ∧ rstrip l ≠ ['>', '>'])
    ∧ lex ("tag <<\n".toList ++ List.intercalate ['\n'] [['<', '<', '>', '>']]
          ++ "\n>>".toList) [] []
      = [⟨tokenType.tokenIdentifier, "tag".toList⟩, ⟨tokenType.tokenSpace, [' ']⟩,
         ⟨tokenType.tokenLeftDelim, "<<".toList⟩, newlineTok,
         ⟨tokenType.tokenBody, List.intercalate ['\n'] [['<', '<', '>', '>']]⟩, newlineTok,
         ⟨tokenType.tokenRightDelim, ">>".toList⟩, eofTok] :=
  ⟨by decide, by decide,
   c6_multiline_body_embedded_delimiters [['<', '<', '>', '>']] (by decide) (by decide)⟩

/-- Split an input into its lines (the newline separators are dropped);
used to state which inputs consist only of blank and comment lines. -/
def splitLines : List Char → List (List Char)
  | [] => [[]]
  | c :: r =>
    if c = '\n' then [] :: splitLines r
    else
      match splitLines r with
      | [] => [[c]]
      | s :: ss => (c :: s) :: ss

theorem splitLines_eq (l : List Char) :
    splitLines l = l.takeWhile notNlChar
      :: (match l.dropWhile notNlChar with | [] => [] | _ :: r2 => splitLines r2) := by
  induction l with
  | nil => rfl
  | cons c r ih =>
    by_cases hc : c = '\n'
    · subst hc
      rw [show splitLines ('\n' :: r) = [] :: splitLines r from by
          simp only [splitLines, if_true, reduceIte]]
      rw [List.takeWhile_cons, if_neg (by decide), List.dropWhile_cons, if_neg (by decide)]
    · have hnl : notNlChar c = true := by simp [notNlChar, hc]
      rw [show splitLines (c :: r)
          = (match splitLines r with | [] => [[c]] | s :: ss => (c :: s) :: ss) from by
          simp only [splitLines, hc, if_false, reduceIte]]
      rw [ih, List.takeWhile_cons, if_pos hnl, List.dropWhile_cons, if_pos hnl]

theorem splitLines_eof {l : List Char} (h : l.dropWhile notNlChar = []) :
    splitLines l = [l.takeWhile notNlChar] := by
  rw [splitLines_eq, h]

theorem splitLines_step {l : List Char} {d : Char} {r2 : List Char}
    (h : l.dropWhile notNlChar = d :: r2) :
    splitLines l = l.takeWhile notNlChar :: splitLines r2 := by
  rw [splitLines_eq, h]

theorem notNlChar_false {c : Char} (h : notNlChar c = false) : c = '\n' := by
  simpa [notNlChar] using h

/-! Step lemmas for `lexLineStart` on comment and blank lines. -/

theorem lexLineStart_nil (left right : List Char) (hl : left ≠ []) (hr : right ≠ []) :
    lexLineStart left right hl hr [] = [eofTok] := by
  simp [lexLineStart]

theorem lexLineStart_comment_eof (left right : List Char) (hl : left ≠ []) (hr : right ≠ [])
    (r : List Char) (h : r.dropWhile notNlChar = []) :
    lexLineStart left right hl hr ('#' :: r) = [eofTok] := by
  simp only [lexLineStart, if_true, reduceIte]
  split
  · rfl
  · rename_i d r2 heq
    rw [h] at heq
    exact absurd heq (by simp)

theorem lexLineStart_comment_step (left right : List Char) (hl : left ≠ []) (hr : right ≠ [])
    (r : List Char) (d : Char) (r2 : List Char) (h : r.dropWhile notNlChar = d :: r2) :
    lexLineStart left right hl hr ('#' :: r) = lexLineStart left right hl hr r2 := by
  simp only [lexLineStart, if_true, reduceIte]
  split
  · rename_i heq
    rw [h] at heq
    exact absurd heq (by simp)
  · rename_i d' r2' heq
    rw [h] at heq
    obtain ⟨-, rfl⟩ := List.cons.inj heq
    rfl

theorem lexLineStart_newline (left right : List Char) (hl : left ≠ []) (hr : right ≠ [])
    (r : List Char) :
    lexLineStart left right hl hr ('\n' :: r) = lexLineStart left right hl hr r := by
  simp only [lexLineStart, if_true, reduceIte]
  rw [if_neg (by decide)]

theorem lexLineStart_blank_eof (left right : List Char) (hl : left ≠ []) (hr : right ≠ [])
    (c : Char) (r : List Char) (hc : isSpaceChar c = true)
    (h : (c :: r).dropWhile isSpaceChar = []) :
    lexLineStart left right hl hr (c :: r) = [eofTok] := by
  have hsp : c = ' ' ∨ c = '\t' := by simpa [isSpaceChar] using hc
  have h1 : ¬(c = '#') := by rcases hsp with rfl | rfl <;> decide
  have h2 : ¬(c = '\n') := by rcases hsp with rfl | rfl <;> decide
  simp only [lexLineStart, h1, h2, hc, if_false, if_true, reduceIte]
  split
  · rfl
  · rename_i d r2 heq
    rw [h] at heq
    exact absurd heq (by simp)

theorem lexLineStart_blank_step (left right : List Char) (hl : left ≠ []) (hr : right ≠ [])
    (c : Char) (r : List Char) (r2 : List Char) (hc : isSpaceChar c = true)
    (h : (c :: r).dropWhile isSpaceChar = '\n' :: r2) :
    lexLineStart left right hl hr (c :: r) = lexLineStart left right hl hr r2 := by
  have hsp : c = ' ' ∨ c = '\t' := by simpa [isSpaceChar] using hc
  have h1 : ¬(c = '#') := by rcases hsp with rfl | rfl <;> decide
  have h2 : ¬(c = '\n') := by rcases hsp with rfl | rfl <;> decide
  simp only [lexLineStart, h1, h2, hc, if_false, if_true, reduceIte]
  split
  · rename_i heq
    rw [h] at heq
    exact absurd heq (by simp)
  · rename_i d r2' heq
    rw [h] at heq
    obtain ⟨hd, rfl⟩ := List.cons.inj heq
    rw [if_pos hd.symm]

/-- A line is invisible to the scanner when it is blank (spaces/tabs only)
or is a comment line (starts with `#`). -/
def wsOrComment (line : List Char) : Prop :=
  (∀ c ∈ line, isSpaceChar c = true) ∨ line.head? = some '#'

theorem lexLineStart_ws_comments (left right : List Char) (hl : left ≠ []) (hr : right ≠ [])
    (n : Nat) :
    ∀ input : List Char, input.length ≤ n →
    (∀ line ∈ splitLines input, wsOrComment line) →
    lexLineStart left right hl hr input = [eofTok] := by
  induction n with
  | zero =>
    intro input hlen hp
    cases input with
    | nil => exact lexLineStart_nil left right hl hr
    | cons c r => simp at hlen
  | succ n ih =>
    intro input hlen hp
    cases input with
    | nil => exact lexLineStart_nil left right hl hr
    | cons c r =>
      by_cases hc : c = '#'
      · subst hc
        have hdrop : ('#' :: r).dropWhile notNlChar = r.dropWhile notNlChar := by
          rw [List.dropWhile_cons, if_pos (by decide)]
        cases hrd : r.dropWhile notNlChar with
        | nil => exact lexLineStart_comment_eof left right hl hr r hrd
        | cons d r2 =>
          rw [lexLineStart_comment_step left right hl hr r d r2 hrd]
          apply ih r2
          · have := dropWhile_cons_length hrd
            simp at hlen
            omega
          · intro line hline
            apply hp
            rw [splitLines_step (by rw [hdrop, hrd])]
            exact List.mem_cons_of_mem _ hline
      · have hline0 : wsOrComment ((c :: r).takeWhile notNlChar) := by
          apply hp
          rw [splitLines_eq]
          exact List.mem_cons_self _ _
        by_cases hnl : c = '\n'
        · subst hnl
          rw [lexLineStart_newline]
          have hdrop : ('\n' :: r).dropWhile notNlChar = '\n' :: r := by
            rw [List.dropWhile_cons, if_neg (by decide)]
          apply ih r
          · simp at hlen
            omega
          · intro line hline
            apply hp
            rw [splitLines_step hdrop]
            exact List.mem_cons_of_mem _ hline
        · -- the first line is not a comment and starts with a non-newline
          have htk : (c :: r).takeWhile notNlChar = c :: r.takeWhile notNlChar := by
            rw [List.takeWhile_cons, if_pos (by simp [notNlChar, hnl])]
          have hall : ∀ x ∈ (c :: r).takeWhile notNlChar, isSpaceChar x = true := by
            rcases hline0 with hbl | hcm
            · exact hbl
            · rw [htk] at hcm
              simp at hcm
              exact absurd hcm hc
          have hc0 : isSpaceChar c = true := hall c (by rw [htk]; simp)
          have hsplit : (c :: r) = (c :: r).takeWhile notNlChar ++ (c :: r).dropWhile notNlChar :=
            (List.takeWhile_append_dropWhile ..).symm
          cases hrest : (c :: r).dropWhile notNlChar with
          | nil =>
            have hde : (c :: r).dropWhile isSpaceChar = [] := by
              conv_lhs => rw [hsplit, hrest]
              rw [List.append_nil]
              exact dropWhile_all (fun x hx => hall x (by assumption))
            exact lexLineStart_blank_eof left right hl hr c r hc0 hde
          | cons d r2 =>
            have hd : d = '\n' := notNlChar_false (dropWhile_head_false hrest)
            subst hd
            have hde : (c :: r).dropWhile isSpaceChar = '\n' :: r2 := by
              conv_lhs => rw [hsplit, hrest]
              rw [dropWhile_append_all (fun x hx => hall x hx)]
              rw [List.dropWhile_cons, if_neg (by decide)]
            rw [lexLineStart_blank_step left right hl hr c r r2 hc0 hde]
            apply ih r2
            · have := dropWhile_cons_length hrest
              simp at this hlen
              omega
            · intro line hline
              apply hp
              rw [splitLines_step hrest]
              exact List.mem_cons_of_mem _ hline

/-- C7: an input consisting solely of whitespace and/or comment lines
tokenizes to exactly one end-of-input token and nothing else, with no
error. -/
theorem c7_whitespace_comment_inputs (input : List Char)
    (h : ∀ line ∈ splitLines input, wsOrComment line) :
    lex input [] [] = [eofTok] :=
  lexLineStart_ws_comments _ _ _ _ input.length input le_rfl h

/-- C7 witness: a comment line followed by a blank line lexes to end of
input only. -/
theorem c7_whitespace_comment_inputs_witness :
    (∀ line ∈ splitLines "# note\n \t".toList, wsOrComment line)
    ∧ lex "# note\n \t".toList [] [] = [eofTok] :=
  ⟨by
    have hd : ∀ line ∈ splitLines "# note\n \t".toList,
        (∀ c ∈ line, isSpaceChar c = true) ∨ line.head? = some '#' := by decide
    exact fun line hline => hd line hline,
   c7_whitespace_comment_inputs "# note\n \t".toList (by
    have hd : ∀ line ∈ splitLines "# note\n \t".toList,
        (∀ c ∈ line, isSpaceChar c = true) ∨ line.head? = some '#' := by decide
    exact fun line hline => hd line hline)⟩

theorem dLne : defaultLeftDelim ≠ [] := by decide

theorem dRne : defaultRightDelim ≠ [] := by decide

theorem word_not_hash {c : Char} (hw : isWordChar c = true) : ¬c = '#' :=
  fun hcc => by subst hcc; exact absurd hw (by decide)

theorem word_not_newline {c : Char} (hw : isWordChar c = true) : ¬c = '\n' :=
  fun hcc => by subst hcc; exact absurd hw (by decide)

theorem word_not_space {c : Char} (hw : isWordChar c = true) : isSpaceChar c = false := by
  by_cases hsp : c = ' '
  · subst hsp
    exact absurd hw (by decide)
  · by_cases hst : c = '\t'
    · subst hst
      exact absurd hw (by decide)
    · simp [isSpaceChar, hsp, hst]

theorem term_not_ident {d : Char}
    (h : isSpaceChar d = true ∨ d = '\n' ∨ d = '=') : isIdentChar d = false := by
  rcases h with hs | rfl | rfl
  · rcases (by simpa [isSpaceChar] using hs : d = ' ' ∨ d = '\t') with rfl | rfl <;> decide
  · decide
  · decide

theorem termOk_of {left rest : List Char}
    (h : rest = [] ∨ ∃ d rs, rest = d :: rs ∧ (isSpaceChar d = true ∨ d = '\n' ∨ d = '=')) :
    termOk left rest = true := by
  rcases h with rfl | ⟨d, rs, rfl, hd⟩
  · rfl
  · rcases hd with hs | rfl | rfl
    · simp [termOk, hs]
    · simp [termOk]
    · simp [termOk]

theorem lexLineStart_ident (left right : List Char) (hl : left ≠ []) (hr : right ≠ [])
    (c : Char) (r : List Char)
    (hc1 : ¬c = '#') (hc2 : ¬c = '\n') (hc3 : isSpaceChar c = false) :
    lexLineStart left right hl hr (c :: r) = scanTagName left right hl hr (c :: r) := by
  simp only [lexLineStart, hc1, hc2, hc3, if_false, reduceIte, Bool.false_eq_true]

/-- C8: a dash as the last character of a scanned identifier, right before
the identifier's terminator (end of input, space/tab, newline or `=`), is
rejected with the terminal error `invalid character U+002D '-' at the end
of the identifier`, whatever the identifier's length; an identifier whose
interior contains dashes but whose last character is not a dash is accepted
as one identifier token carrying the dashes. -/
theorem c8_identifier_dash_rules (c : Char) (cs : List Char) (rest : List Char)
    (hw : isWordChar c = true)
    (hall : ∀ x ∈ c :: cs, isIdentChar x = true)
    (hterm : rest = []
      ∨ ∃ d rs, rest = d :: rs ∧ (isSpaceChar d = true ∨ d = '\n' ∨ d = '=')) :
    ((c :: cs).getLast? = some '-' →
      lex ((c :: cs) ++ rest) [] [] = [⟨tokenType.tokenError, trailingDashMsg⟩])
    ∧ ((c :: cs).getLast? ≠ some '-' →
      lex ((c :: cs) ++ rest) [] []
        = ⟨tokenType.tokenIdentifier, c :: cs⟩
          :: lexTagBody defaultLeftDelim defaultRightDelim dLne dRne rest) := by
  have hallcs : ∀ x ∈ cs, isIdentChar x = true := fun x hx => hall x (by simp [hx])
  have htake : (cs ++ rest).takeWhile isIdentChar = cs := by
    rcases hterm with rfl | ⟨d, rs, rfl, hd⟩
    · rw [List.append_nil]
      exact takeWhile_all hallcs
    · exact takeWhile_append_stop hallcs (term_not_ident hd)
  have hdropR : (cs ++ rest).dropWhile isIdentChar = rest := by
    rcases hterm with rfl | ⟨d, rs, rfl, hd⟩
    · rw [List.append_nil]
      rw [dropWhile_all hallcs]
    · exact dropWhile_append_stop hallcs (term_not_ident hd)
  have hlex : lex ((c :: cs) ++ rest) [] []
      = scanTagName defaultLeftDelim defaultRightDelim dLne dRne (c :: (cs ++ rest)) := by
    show lexLineStart defaultLeftDelim defaultRightDelim _ _ (c :: (cs ++ rest)) = _
    exact lexLineStart_ident defaultLeftDelim defaultRightDelim _ _ c (cs ++ rest)
      (word_not_hash hw) (word_not_newline hw) (word_not_space hw)
  have hscan : scanTagName defaultLeftDelim defaultRightDelim dLne dRne (c :: (cs ++ rest))
      = (if (c :: cs).getLast? = some '-' then [errTok trailingDashMsg]
         else ⟨tokenType.tokenIdentifier, c :: cs⟩
           :: lexTagBody defaultLeftDelim defaultRightDelim dLne dRne rest) := by
    simp only [scanTagName]
    rw [dif_pos hw, hdropR, if_pos (termOk_of hterm)]
    rw [List.takeWhile_cons, if_pos (hall c (by simp)), htake]
  constructor
  · intro hdash
    rw [hlex, hscan, if_pos hdash]
    rfl
  · intro hdash
    rw [hlex, hscan, if_neg hdash]

/-- C8 witness: `tag-` is rejected with the trailing-dash error; `a-b` is
accepted as a single identifier token containing the interior dash. -/
theorem c8_identifier_dash_rules_witness :
    isWordChar 't' = true
    ∧ (∀ x ∈ ('t' :: ['a', 'g', '-']), isIdentChar x = true)
    ∧ ('t' :: ['a', 'g', '-']).getLast? = some '-'
    ∧ lex (('t' :: ['a', 'g', '-']) ++ []) [] [] = [⟨tokenType.tokenError, trailingDashMsg⟩]
    ∧ ('a' :: ['-', 'b']).getLast? ≠ some '-'
    ∧ lex (('a' :: ['-', 'b']) ++ []) [] []
        = ⟨tokenType.tokenIdentifier, 'a' :: ['-', 'b']⟩
          :: lexTagBody defaultLeftDelim defaultRightDelim dLne dRne [] :=
  ⟨by decide, by decide, by decide,
   (c8_identifier_dash_rules 't' ['a', 'g', '-'] [] (by decide) (by decide)
      (Or.inl rfl)).1 (by decide),
   by decide,
   (c8_identifier_dash_rules 'a' ['-', 'b'] [] (by decide) (by decide)
      (Or.inl rfl)).2 (by decide)⟩

end markup

namespace generator

/-!
`joinWithinRoot` from the `generator` package, together with the pieces of
Go's `path/filepath`/`strings` standard library it uses, modelled from
their documented semantics on a Unix configuration
(`filepath.Separator = '/'`).  Strings are modelled as `List Char`.

* `splitSep` is `strings.Split(s, "/")`;
* `joinSep` is `strings.Join(parts, "/")`;
* `clean` is `filepath.Clean`: squeeze separator runs, drop `.` elements,
  eliminate `..` along with the preceding non-`..` element, and drop `..`
  elements at the root; empty cleans to `.`;
* `join2` is the two-argument `filepath.Join`: skip empty arguments, then
  `Clean` the separator-joined rest.

`resolvePath` is the semantic location of a path used to state containment:
whether the path is rooted, how many levels it climbs above the start, and
the stack of directory segments below that.
-/

def sep : Char := '/'

/-- `strings.Split(s, "/")`. -/
def splitSep : List Char → List (List Char)
  | [] => [[]]
  | c :: r =>
    if c = sep then [] :: splitSep r
    else
      match splitSep r with
      | [] => [[c]]
      | s :: ss => (c :: s) :: ss

/-- `strings.Join(parts, "/")`. -/
def joinSep (parts : List (List Char)) : List Char := List.intercalate [sep] parts

def dotdot : List Char := ['.', '.']

/-- One step of `filepath.Clean` over a path element. -/
def cleanStep (rooted : Bool) (out : List (List Char)) (s : List Char) : List (List Char) :=
  if s = [] ∨ s = ['.'] then out
  else if s = dotdot then
    if out ≠ [] ∧ out.getLast? ≠ some dotdot then out.dropLast
    else if rooted then out
    else out ++ [dotdot]
  else out ++ [s]

def cleanSegs (rooted : Bool) (segs : List (List Char)) : List (List Char) :=
  segs.foldl (cleanStep rooted) []

def isRooted : List Char → Bool
  | [] => false
  | c :: _ => c == sep

/-- `filepath.Clean` (documented segment semantics). -/
def clean (p : List Char) : List Char :=
  let out := cleanSegs (isRooted p) (splitSep p)
  if isRooted p then sep :: joinSep out
  else if out = [] then ['.']
  else joinSep out

/-- The two-argument `filepath.Join`. -/
def join2 (a b : List Char) : List Char :=
  if a ≠ [] then clean (a ++ sep :: b)
  else if b ≠ [] then clean b
  else []

/-- `joinWithinRoot` from the `generator` package: clean the relative path,
strip its leading `..` elements, and join the remainder onto the root. -/
def joinWithinRoot (root relpath : List Char) : List Char :=
  let parts := splitSep (clean relpath)
  let parts2 := parts.dropWhile (fun part => part == dotdot)
  join2 root (joinSep parts2)

/-- The semantic location a path resolves to: rootedness, levels climbed
above the starting directory, and the segment stack below that. -/
structure PathLoc where
  rooted : Bool
  ups : Nat
  segs : List (List Char)
deriving DecidableEq, Repr

def resolveStep (rooted : Bool) (st : Nat × List (List Char)) (s : List Char) :
    Nat × List (List Char) :=
  if s = [] ∨ s = ['.'] then st
  else if s = dotdot then
    match st.2 with
    | [] => if rooted then (st.1, []) else (st.1 + 1, [])
    | _ => (st.1, st.2.dropLast)
  else (st.1, st.2 ++ [s])

def resolvePath (p : List Char) : PathLoc :=
  ⟨isRooted p, ((splitSep p).foldl (resolveStep (isRooted p)) (0, [])).1,
    ((splitSep p).foldl (resolveStep (isRooted p)) (0, [])).2⟩

/-! Basic facts about `splitSep` and `joinSep`. -/

theorem splitSep_ne_nil (l : List Char) : splitSep l ≠ [] := by
  cases l with
  | nil => simp [splitSep]
  | cons c r =>
    unfold splitSep
    by_cases hc : c = sep
    · simp [hc]
    · rw [if_neg hc]
      split <;> simp

theorem splitSep_sep_free (l : List Char) : ∀ s ∈ splitSep l, sep ∉ s := by
  induction l with
  | nil =>
    intro s hs
    simp [splitSep] at hs
    simp [hs]
  | cons c r ih =>
    intro s hs
    unfold splitSep at hs
    by_cases hc : c = sep
    · rw [if_pos hc] at hs
      rcases List.mem_cons.mp hs with rfl | hm
      · simp
      · exact ih s hm
    · rw [if_neg hc] at hs
      cases hsp : splitSep r with
      | nil => exact absurd hsp (splitSep_ne_nil r)
      | cons s0 ss =>
        rw [hsp] at hs
        rcases List.mem_cons.mp hs with rfl | hm
        · intro hmem
          rcases List.mem_cons.mp hmem with rfl | hm2
          · exact hc rfl
          · exact ih s0 (by rw [hsp]; simp) hm2
        · exact ih s (by rw [hsp]; simp [hm])

theorem splitSep_append (a b : List Char) :
    splitSep (a ++ sep :: b) = splitSep a ++ splitSep b := by
  induction a with
  | nil => simp [splitSep]
  | cons c a' ih =>
    by_cases hc : c = sep
    · rw [List.cons_append]
      unfold splitSep
      rw [if_pos hc, if_pos hc, ih]
      rw [← splitSep.eq_def]
      rfl
    · rw [List.cons_append]
      unfold splitSep
      rw [if_neg hc, if_neg hc, ih]
      rw [← splitSep.eq_def]
      cases hsp : splitSep a' with
      | nil => exact absurd hsp (splitSep_ne_nil a')
      | cons s0 ss => simp

theorem splitSep_sep_free_id (l : List Char) (h : sep ∉ l) : splitSep l = [l] := by
  induction l with
  | nil => rfl
  | cons c r ih =>
    unfold splitSep
    rw [if_neg (by intro hcc; exact h (by simp [hcc]))]
    rw [ih (fun hm => h (by simp [hm]))]

theorem joinSep_cons_cons (x y : List Char) (zs : List (List Char)) :
    joinSep (x :: y :: zs) = x ++ sep :: joinSep (y :: zs) := by
  simp [joinSep, List.intercalate, List.intersperse]

theorem splitSep_joinSep (parts : List (List Char)) (hne : parts ≠ [])
    (hfree : ∀ s ∈ parts, sep ∉ s) :
    splitSep (joinSep parts) = parts := by
  induction parts with
  | nil => exact absurd rfl hne
  | cons x rest ih =>
    cases rest with
    | nil =>
      have : joinSep [x] = x := by simp [joinSep, List.intercalate, List.intersperse]
      rw [this, splitSep_sep_free_id x (hfree x (by simp))]
    | cons y zs =>
      rw [joinSep_cons_cons, splitSep_append,
        splitSep_sep_free_id x (hfree x (by simp)),
        ih (by simp) (fun s hs => hfree s (by simp [hs]))]
      rfl

/-- A path element that `Clean` copies through unchanged: neither empty,
`.`, nor `..`, and separator-free. -/
def pureSeg (s : List Char) : Prop := s ≠ [] ∧ s ≠ ['.'] ∧ s ≠ dotdot ∧ sep ∉ s

theorem replicate_getLast? {α : Type} (k : Nat) (a : α) :
    (List.replicate (k + 1) a).getLast? = some a := by
  induction k with
  | zero => rfl
  | succ k ih =>
    rw [List.replicate_succ, template.getLast?_cons_getD, ih]
    rfl

theorem dropLast_append_right {α : Type} (a b : List α) (hb : b ≠ []) :
    (a ++ b).dropLast = a ++ b.dropLast := by
  obtain ⟨y, ys, rfl⟩ := List.exists_cons_of_ne_nil hb
  rw [List.dropLast_append_cons]

theorem resolveStep_dotdot_nil (rooted : Bool) (u : Nat) :
    resolveStep rooted (u, []) dotdot
      = (if rooted then (u, []) else (u + 1, [])) := by
  unfold resolveStep
  rw [if_neg (by decide), if_pos rfl]

theorem resolveFold_replicate_false (k u : Nat) :
    (List.replicate k dotdot).foldl (resolveStep false) (u, ([] : List (List Char)))
      = (u + k, []) := by
  induction k generalizing u with
  | zero => simp
  | succ k ih =>
    rw [List.replicate_succ, List.foldl_cons, resolveStep_dotdot_nil]
    simp only [if_neg (by simp : ¬(false = true))]
    rw [ih (u + 1)]
    have h : u + 1 + k = u + (k + 1) := by omega
    rw [h]

theorem resolveStep_pure (rooted : Bool) (st : Nat × List (List Char)) (s : List Char)
    (hs : pureSeg s) : resolveStep rooted st s = (st.1, st.2 ++ [s]) := by
  obtain ⟨h1, h2, h3, -⟩ := hs
  unfold resolveStep
  rw [if_neg (by simp [h1, h2]), if_neg h3]

theorem resolveFold_pure (rooted : Bool) (st : Nat × List (List Char))
    (segs : List (List Char)) (h : ∀ s ∈ segs, pureSeg s) :
    segs.foldl (resolveStep rooted) st = (st.1, st.2 ++ segs) := by
  induction segs generalizing st with
  | nil => simp
  | cons s rest ih =>
    rw [List.foldl_cons, resolveStep_pure rooted st s (h s (by simp))]
    rw [ih (st.1, st.2 ++ [s]) (fun x hx => h x (by simp [hx]))]
    simp

theorem dropWhile_replicate_dotdot (k : Nat) (pure : List (List Char))
    (hp : ∀ s ∈ pure, s ≠ dotdot) :
    (List.replicate k dotdot ++ pure).dropWhile (fun part => part == dotdot) = pure := by
  induction k with
  | zero =>
    cases pure with
    | nil => rfl
    | cons p0 ps =>
      rw [List.replicate_zero, List.nil_append, List.dropWhile_cons,
        if_neg (by simpa using hp p0 (by simp))]
  | succ k ih =>
    rw [List.replicate_succ, List.cons_append, List.dropWhile_cons, if_pos (by simp)]
    exact ih

/-- The central correspondence: folding `Clean`'s per-element step keeps the
output in the normal form `..^k ++ pure`, and the resolved location of that
output is exactly what `resolveStep` computes. -/
theorem clean_resolve_corr (rooted : Bool) (segs : List (List Char))
    (hsegs : ∀ s ∈ segs, sep ∉ s) :
    ∀ (k : Nat) (pure : List (List Char)),
    (∀ s ∈ pure, pureSeg s) → (rooted = true → k = 0) →
    ∃ k' pure',
      segs.foldl (cleanStep rooted) (List.replicate k dotdot ++ pure)
        = List.replicate k' dotdot ++ pure'
      ∧ (∀ s ∈ pure', pureSeg s)
      ∧ (rooted = true → k' = 0)
      ∧ segs.foldl (resolveStep rooted) (k, pure) = (k', pure') := by
  induction segs with
  | nil => exact fun k pure hp hk => ⟨k, pure, rfl, hp, hk, rfl⟩
  | cons s rest ih =>
    intro k pure hp hk
    have hrest : ∀ x ∈ rest, sep ∉ x := fun x hx => hsegs x (by simp [hx])
    by_cases hs0 : s = [] ∨ s = ['.']
    · have hc : cleanStep rooted (List.replicate k dotdot ++ pure) s
          = List.replicate k dotdot ++ pure := by
        unfold cleanStep
        rw [if_pos hs0]
      have hrv : resolveStep rooted (k, pure) s = (k, pure) := by
        unfold resolveStep
        rw [if_pos hs0]
      rw [List.foldl_cons, List.foldl_cons, hc, hrv]
      exact ih hrest k pure hp hk
    · by_cases hdd : s = dotdot
      · subst hdd
        by_cases hpn : pure = []
        · subst hpn
          cases hro : rooted with
          | true =>
            have hk0 : k = 0 := hk hro
            subst hk0
            subst hro
            have hc : cleanStep true (List.replicate 0 dotdot ++ []) dotdot
                = List.replicate 0 dotdot ++ [] := by
              unfold cleanStep
              rw [if_neg (by simp [dotdot]), if_pos rfl, if_neg (by simp), if_pos rfl]
            have hrv : resolveStep true ((0 : Nat), ([] : List (List Char))) dotdot
                = (0, []) := by
              rw [resolveStep_dotdot_nil]
              simp
            rw [List.foldl_cons, List.foldl_cons, hc, hrv]
            exact ih hrest 0 [] (fun x hx => absurd hx (by simp)) (fun _ => rfl)
          | false =>
            subst hro
            have hc : cleanStep false (List.replicate k dotdot ++ []) dotdot
                = List.replicate (k + 1) dotdot ++ [] := by
              unfold cleanStep
              rw [if_neg (by simp [dotdot]), if_pos rfl]
              rw [if_neg ?hguard, if_neg (by simp)]
              · rw [List.append_nil, List.append_nil, ← List.replicate_succ']
              case hguard =>
                intro hand
                obtain ⟨hne, hlast⟩ := hand
                rw [List.append_nil] at hne hlast
                cases k with
                | zero => simp at hne
                | succ k2 => exact hlast (replicate_getLast? k2 dotdot)
            have hrv : resolveStep false (k, ([] : List (List Char))) dotdot
                = (k + 1, []) := by
              rw [resolveStep_dotdot_nil]
              simp
            rw [List.foldl_cons, List.foldl_cons, hc, hrv]
            exact ih hrest (k + 1) [] (fun x hx => absurd hx (by simp))
              (by intro hcon; exact absurd hcon (by simp))
        · -- pure is nonempty: `..` pops its last element in both folds
          have hgl : (List.replicate k dotdot ++ pure).getLast? ≠ some dotdot := by
            rw [List.getLast?_append_of_ne_nil _ hpn,
              List.getLast?_eq_getLast_of_ne_nil hpn]
            intro hcon
            have hmem := List.getLast_mem hpn
            have := (hp _ hmem).2.2.1
            exact this (by simpa using hcon)
          have hc : cleanStep rooted (List.replicate k dotdot ++ pure) dotdot
              = List.replicate k dotdot ++ pure.dropLast := by
            unfold cleanStep
            rw [if_neg (by simp [dotdot]), if_pos rfl,
              if_pos ⟨fun hnil => hpn (List.append_eq_nil.mp hnil).2, hgl⟩]
            rw [dropLast_append_right _ _ hpn]
          have hrv : resolveStep rooted (k, pure) dotdot = (k, pure.dropLast) := by
            obtain ⟨p0, ps, hps⟩ := List.exists_cons_of_ne_nil hpn
            unfold resolveStep
            rw [if_neg (by simp [dotdot]), if_pos rfl, hps]
          rw [List.foldl_cons, List.foldl_cons, hc, hrv]
          exact ih hrest k pure.dropLast
            (fun x hx => hp x (List.dropLast_subset _ hx)) hk
      · have hps : pureSeg s :=
          ⟨fun h => hs0 (Or.inl h), fun h => hs0 (Or.inr h), hdd, hsegs s (by simp)⟩
        have hc : cleanStep rooted (List.replicate k dotdot ++ pure) s
            = List.replicate k dotdot ++ (pure ++ [s]) := by
          unfold cleanStep
          rw [if_neg hs0, if_neg hdd, List.append_assoc]
        rw [List.foldl_cons, List.foldl_cons, hc, resolveStep_pure rooted (k, pure) s hps]
        exact ih hrest k (pure ++ [s])
          (fun x hx => by
            rcases List.mem_append.mp hx with hx1 | hx2
            · exact hp x hx1
            · rw [List.mem_singleton.mp hx2]
              exact hps) hk

theorem clean_corr (p : List Char) :
    ∃ k' pure',
      cleanSegs (isRooted p) (splitSep p) = List.replicate k' dotdot ++ pure'
      ∧ (∀ s ∈ pure', pureSeg s)
      ∧ (isRooted p = true → k' = 0)
      ∧ (splitSep p).foldl (resolveStep (isRooted p)) (0, []) = (k', pure') := by
  have h := clean_resolve_corr (isRooted p) (splitSep p) (splitSep_sep_free p) 0 []
    (fun x hx => absurd hx (by simp)) (fun _ => rfl)
  simpa [cleanSegs] using h

theorem joinSep_singleton (x : List Char) : joinSep [x] = x := by
  simp [joinSep, List.intercalate, List.intersperse]

theorem isRooted_joinSep_cons (o0 : List Char) (os : List (List Char))
    (h0 : o0 ≠ []) (hsep : sep ∉ o0) :
    isRooted (joinSep (o0 :: os)) = false := by
  obtain ⟨c, cx, rfl⟩ := List.exists_cons_of_ne_nil h0
  have hcs : ¬(c = sep) := fun hc => hsep (by simp [hc])
  cases os with
  | nil =>
    rw [joinSep_singleton]
    simp [isRooted, hcs]
  | cons o1 os' =>
    rw [joinSep_cons_cons, List.cons_append]
    simp [isRooted, hcs]

theorem resolveFold_skip (rooted : Bool) (st : Nat × List (List Char))
    (parts : List (List Char)) (h : ∀ s ∈ parts, s = [] ∨ s = ['.']) :
    parts.foldl (resolveStep rooted) st = st := by
  induction parts generalizing st with
  | nil => rfl
  | cons s rest ih =>
    rw [List.foldl_cons, show resolveStep rooted st s = st from by
      unfold resolveStep
      rw [if_pos (h s (by simp))]]
    exact ih st (fun x hx => h x (by simp [hx]))

theorem resolvePath_nil : resolvePath [] = ⟨false, 0, []⟩ := by decide

theorem resolvePath_append_fold (root rest : List Char) (hroot : root ≠ []) :
    resolvePath (root ++ sep :: rest)
      = ⟨(resolvePath root).rooted,
        ((splitSep rest).foldl (resolveStep (resolvePath root).rooted)
          ((resolvePath root).ups, (resolvePath root).segs)).1,
        ((splitSep rest).foldl (resolveStep (resolvePath root).rooted)
          ((resolvePath root).ups, (resolvePath root).segs)).2⟩ := by
  obtain ⟨c, cr, rfl⟩ := List.exists_cons_of_ne_nil hroot
  have hro : isRooted ((c :: cr) ++ sep :: rest) = isRooted (c :: cr) := by
    rw [List.cons_append]
    rfl
  unfold resolvePath
  rw [hro, List.cons_append, ← List.cons_append, splitSep_append, List.foldl_append]

/-- Cleaning a path does not change the location it resolves to. -/
theorem resolvePath_clean (p : List Char) : resolvePath (clean p) = resolvePath p := by
  obtain ⟨k', pure', hout, hp', hk', hres⟩ := clean_corr p
  have hrp : resolvePath p = ⟨isRooted p, k', pure'⟩ := by
    unfold resolvePath
    rw [hres]
  have hsf_pure : ∀ s ∈ pure', sep ∉ s := fun s hs => (hp' s hs).2.2.2
  cases hro : isRooted p with
  | true =>
    have hk0 : k' = 0 := hk' hro
    subst hk0
    have hcp : clean p = sep :: joinSep pure' := by
      simp only [clean]
      rw [hout, hro]
      simp
    rw [hcp, hrp, hro]
    by_cases hpe : pure' = []
    · subst hpe
      decide
    · have hsplit : splitSep (sep :: joinSep pure') = [] :: pure' := by
        unfold splitSep
        rw [if_pos rfl, splitSep_joinSep pure' hpe hsf_pure]
      unfold resolvePath
      rw [hsplit, show isRooted (sep :: joinSep pure') = true from by simp [isRooted]]
      rw [List.foldl_cons, show resolveStep true ((0 : Nat), ([] : List (List Char))) []
          = (0, []) from by unfold resolveStep; rw [if_pos (Or.inl rfl)]]
      rw [resolveFold_pure true (0, []) pure' hp']
      simp
  | false =>
    by_cases hoe : (List.replicate k' dotdot ++ pure') = []
    · obtain ⟨hke, hpe⟩ := List.append_eq_nil.mp hoe
      have hk0 : k' = 0 := by
        cases k' with
        | zero => rfl
        | succ k2 => simp [List.replicate_succ] at hke
      have hcp : clean p = ['.'] := by
        simp only [clean]
        rw [hout, hoe, hro]
        simp
      rw [hcp, hrp, hro, hk0, hpe]
      decide
    · have hcp : clean p = joinSep (List.replicate k' dotdot ++ pure') := by
        simp only [clean]
        rw [hout, hro]
        simp [hoe]
      have hsf_out : ∀ s ∈ List.replicate k' dotdot ++ pure', sep ∉ s := by
        intro s hs
        rcases List.mem_append.mp hs with hs1 | hs2
        · rw [List.eq_of_mem_replicate hs1]
          decide
        · exact hsf_pure s hs2
      obtain ⟨o0, os, hobs⟩ :
          ∃ o0 os, List.replicate k' dotdot ++ pure' = o0 :: os :=
        List.exists_cons_of_ne_nil hoe
      have ho0 : o0 ≠ [] ∧ sep ∉ o0 := by
        have hmem : o0 ∈ List.replicate k' dotdot ++ pure' := by rw [hobs]; simp
        rcases List.mem_append.mp hmem with hs1 | hs2
        · rw [List.eq_of_mem_replicate hs1]
          exact ⟨by simp [dotdot], by decide⟩
        · exact ⟨(hp' o0 hs2).1, hsf_pure o0 hs2⟩
      have hroj : isRooted (joinSep (List.replicate k' dotdot ++ pure')) = false := by
        rw [hobs]
        exact isRooted_joinSep_cons o0 os ho0.1 ho0.2
      have hsplit : splitSep (joinSep (List.replicate k' dotdot ++ pure'))
          = List.replicate k' dotdot ++ pure' := splitSep_joinSep _ hoe hsf_out
      rw [hcp, hrp, hro]
      unfold resolvePath
      rw [hroj, hsplit, List.foldl_append, resolveFold_replicate_false k' 0,
        resolveFold_pure false (0 + k', []) pure' hp']
      simp

/-- C9: joining a relative path onto a destination root with
`joinWithinRoot` always lands inside the root: the result resolves to the
same rootedness and the same number of levels above the start as the root
itself, plus zero or more ordinary segments below the root — leading `..`
segments of the cleaned relative path are stripped, so an escaping path is
clamped back inside. -/
theorem c9_joinWithinRoot_containment (root relpath : List Char)
    (hrel : isRooted relpath = false) :
    (resolvePath (joinWithinRoot root relpath)).rooted = (resolvePath root).rooted
    ∧ (resolvePath (joinWithinRoot root relpath)).ups = (resolvePath root).ups
    ∧ ∃ extra, (∀ s ∈ extra, s ≠ dotdot)
        ∧ (resolvePath (joinWithinRoot root relpath)).segs
            = (resolvePath root).segs ++ extra := by
  obtain ⟨k', pure', hout, hp', hk', -⟩ := clean_corr relpath
  have hsf_pure : ∀ s ∈ pure', sep ∉ s := fun s hs => (hp' s hs).2.2.2
  by_cases hoe : (List.replicate k' dotdot ++ pure') = []
  · -- the relative path cleans to "."
    have hclean : clean relpath = ['.'] := by
      simp only [clean]
      rw [hout, hoe, hrel]
      simp
    have hcl : joinSep ((splitSep ['.']).dropWhile (fun part => part == dotdot))
        = ['.'] := by decide
    have hjwr : joinWithinRoot root relpath = join2 root ['.'] := by
      simp only [joinWithinRoot]
      rw [hclean, hcl]
    by_cases hroe : root = []
    · subst hroe
      have hj0 : join2 [] ['.'] = ['.'] := by decide
      rw [hjwr, hj0, resolvePath_nil]
      exact ⟨by decide, by decide, [], by simp, by decide⟩
    · have hj2 : join2 root ['.'] = clean (root ++ sep :: ['.']) := by
        simp only [join2]
        rw [if_pos hroe]
      rw [hjwr, hj2, resolvePath_clean, resolvePath_append_fold root ['.'] hroe,
        show splitSep ['.'] = [['.']] from by decide,
        resolveFold_skip _ _ _ (fun s hs => Or.inr (by simpa using hs))]
      exact ⟨rfl, rfl, [], by simp, by simp⟩
  · have hclean : clean relpath = joinSep (List.replicate k' dotdot ++ pure') := by
      simp only [clean]
      rw [hout, hrel]
      simp [hoe]
    have hsf_out : ∀ s ∈ List.replicate k' dotdot ++ pure', sep ∉ s := by
      intro s hs
      rcases List.mem_append.mp hs with hs1 | hs2
      · rw [List.eq_of_mem_replicate hs1]
        decide
      · exact hsf_pure s hs2
    have hsplit : splitSep (clean relpath) = List.replicate k' dotdot ++ pure' := by
      rw [hclean]
      exact splitSep_joinSep _ hoe hsf_out
    have hdw : (List.replicate k' dotdot ++ pure').dropWhile (fun part => part == dotdot)
        = pure' := dropWhile_replicate_dotdot k' pure' (fun s hs => (hp' s hs).2.2.1)
    have hjwr : joinWithinRoot root relpath = join2 root (joinSep pure') := by
      simp only [joinWithinRoot]
      rw [hsplit, hdw]
    by_cases hpe : pure' = []
    · subst hpe
      rw [hjwr]
      by_cases hroe : root = []
      · subst hroe
        rw [show join2 [] (joinSep ([] : List (List Char))) = [] from by decide]
        exact ⟨rfl, rfl, [], by simp, by simp⟩
      · rw [show join2 root (joinSep ([] : List (List Char)))
            = clean (root ++ sep :: joinSep ([] : List (List Char))) from by
            simp only [join2]
            rw [if_pos hroe],
          resolvePath_clean, resolvePath_append_fold root _ hroe,
          show splitSep (joinSep ([] : List (List Char))) = [[]] from by decide,
          resolveFold_skip _ _ _ (fun s hs => Or.inl (by simpa using hs))]
        exact ⟨rfl, rfl, [], by simp, by simp⟩
    · obtain ⟨q0, qs, hpeq⟩ := List.exists_cons_of_ne_nil hpe
      have hq0mem : q0 ∈ pure' := by rw [hpeq]; simp
      have hrestne : joinSep pure' ≠ [] := by
        rw [hpeq]
        cases qs with
        | nil =>
          rw [joinSep_singleton]
          exact (hp' q0 hq0mem).1
        | cons q1 qs' =>
          rw [joinSep_cons_cons]
          simp
      have hsp_rest : splitSep (joinSep pure') = pure' :=
        splitSep_joinSep pure' hpe hsf_pure
      by_cases hroe : root = []
      · subst hroe
        have hj2 : join2 [] (joinSep pure') = clean (joinSep pure') := by
          simp only [join2]
          rw [if_neg (by simp), if_pos hrestne]
        rw [hjwr, hj2, resolvePath_clean, resolvePath_nil]
        have hrj : isRooted (joinSep pure') = false := by
          rw [hpeq]
          exact isRooted_joinSep_cons q0 qs (hp' q0 hq0mem).1 (hsf_pure q0 hq0mem)
        unfold resolvePath
        rw [hrj, hsp_rest, resolveFold_pure false (0, []) pure' hp']
        exact ⟨rfl, rfl, pure', fun s hs => (hp' s hs).2.2.1, by simp⟩
      · have hj2 : join2 root (joinSep pure') = clean (root ++ sep :: joinSep pure') := by
          simp only [join2]
          rw [if_pos hroe]
        rw [hjwr, hj2, resolvePath_clean, resolvePath_append_fold root _ hroe, hsp_rest,
          resolveFold_pure (resolvePath root).rooted
            ((resolvePath root).ups, (resolvePath root).segs) pure' hp']
        exact ⟨rfl, rfl, pure', fun s hs => (hp' s hs).2.2.1, by simp⟩

/-- C9 witness: joining `../../etc/passwd` onto root `app` stays inside
`app`: the result is `app/etc/passwd`, resolving to root's location plus
ordinary segments. -/
theorem c9_joinWithinRoot_containment_witness :
    isRooted "../../etc/passwd".toList = false
    ∧ joinWithinRoot "app".toList "../../etc/passwd".toList = "app/etc/passwd".toList
    ∧ (resolvePath (joinWithinRoot "app".toList "../../etc/passwd".toList)).rooted
        = (resolvePath "app".toList).rooted
    ∧ (resolvePath (joinWithinRoot "app".toList "../../etc/passwd".toList)).ups
        = (resolvePath "app".toList).ups
    ∧ ∃ extra, (∀ s ∈ extra, s ≠ dotdot)
        ∧ (resolvePath (joinWithinRoot "app".toList "../../etc/passwd".toList)).segs
            = (resolvePath "app".toList).segs ++ extra :=
  ⟨by decide, by decide,
   (c9_joinWithinRoot_containment "app".toList "../../etc/passwd".toList (by decide)).1,
   (c9_joinWithinRoot_containment "app".toList "../../etc/passwd".toList (by decide)).2.1,
   (c9_joinWithinRoot_containment "app".toList "../../etc/passwd".toList (by decide)).2.2⟩

end generator
